import Mathlib

/-! Endian utilities (`include/endian/endian.hpp`).

A shallow embedding of the header-only `endian` library and proofs of its
contract.

Modelling conventions:

* unsigned machine integers are natural numbers; every place where C++
  truncates (a `static_cast`, an assignment to a narrower type, an unsigned
  shift) carries an explicit `% 2 ^ w`;
* a `std::uint8_t` is a `Byte` (`Fin 256`), a buffer is a `List Byte`;
* pointer accesses `p[i]` are bounds-checked: a read or write at an index
  outside the buffer makes the operation return `none` (the C++ behaviour is
  undefined there);
* the `for (i = 0; i < sizeof(T); ++i)` loops are left folds over
  `List.range (sizeof T)` in the `Option` monad.
-/

namespace endian

/-- One `std::uint8_t`. -/
abbrev Byte := Fin 256

/-- The integer types accepted by `detail::is_supported`:
`std::uint16_t`, `std::uint32_t`, `std::uint64_t`. -/
inductive UIntType where
  | u16
  | u32
  | u64
  deriving DecidableEq, Repr

/-- The value of `sizeof(T)` in bytes. -/
def sizeof : UIntType → Nat
  | .u16 => 2
  | .u32 => 4
  | .u64 => 8

/-- The number of value bits of `T`. -/
def bits (T : UIntType) : Nat := 8 * sizeof T

/-- The conversion `static_cast<T>(x)`: reduction modulo `2 ^ bits T`. -/
def castT (T : UIntType) (x : Nat) : Nat := x % 2 ^ bits T

/-- The conversion `static_cast<std::uint8_t>(x)`. -/
def castU8 (x : Nat) : Byte := Fin.ofNat x

/-- The number of bits of the type in which an arithmetic expression on `T`
is evaluated: `std::uint16_t` operands are promoted to (32-bit) `int`, the
other two types are used as they are. -/
def promotedBits : UIntType → Nat
  | .u16 => 32
  | .u32 => 32
  | .u64 => 64

/-- The expression `x << k` on an operand of type `T`, evaluated in the
promoted type. For `std::uint16_t` that type is the signed `int`, in which the
shifts of this library stay below `2 ^ 24` and so never overflow. -/
def shl (T : UIntType) (x k : Nat) : Nat := (x <<< k) % 2 ^ promotedBits T

/-- `bswap16`: `static_cast<std::uint16_t>((v >> 8) | (v << 8))`; the operand
is promoted to `int`, so only the cast truncates. -/
def bswap16 (v : Nat) : Nat := ((v >>> 8) ||| (v <<< 8)) % 2 ^ 16

/-- `bswap32`, on `std::uint32_t`: the left shifts wrap modulo `2 ^ 32`. -/
def bswap32 (v : Nat) : Nat :=
  (((v &&& 0x000000FF) <<< 24) % 2 ^ 32) |||
  (((v &&& 0x0000FF00) <<< 8) % 2 ^ 32) |||
  ((v &&& 0x00FF0000) >>> 8) |||
  ((v &&& 0xFF000000) >>> 24)

/-- `bswap64`, on `std::uint64_t`: the left shifts wrap modulo `2 ^ 64`. -/
def bswap64 (v : Nat) : Nat :=
  (((v &&& 0x00000000000000FF) <<< 56) % 2 ^ 64) |||
  (((v &&& 0x000000000000FF00) <<< 40) % 2 ^ 64) |||
  (((v &&& 0x0000000000FF0000) <<< 24) % 2 ^ 64) |||
  (((v &&& 0x00000000FF000000) <<< 8) % 2 ^ 64) |||
  ((v &&& 0x000000FF00000000) >>> 8) |||
  ((v &&& 0x0000FF0000000000) >>> 24) |||
  ((v &&& 0x00FF000000000000) >>> 40) |||
  ((v &&& 0xFF00000000000000) >>> 56)

/-- `detail::bswap<T>`: dispatch on the type. -/
def bswap : UIntType → Nat → Nat
  | .u16, v => castT .u16 (bswap16 v)
  | .u32, v => castT .u32 (bswap32 v)
  | .u64, v => castT .u64 (bswap64 v)

/-- The read `p[i]`, `none` outside the buffer. -/
def readByte (p : List Byte) (i : Nat) : Option Byte := p[i]?

/-- The write `p[i] = b`, `none` outside the buffer. -/
def writeByte (p : List Byte) (i : Nat) (b : Byte) : Option (List Byte) :=
  if i < p.length then some (p.set i b) else none

/-- One iteration of the loop of `load_le`:
`v |= static_cast<T>(static_cast<T>(p[i]) << (8 * i))`. -/
def load_le_step (T : UIntType) (p : List Byte) (v i : Nat) : Option Nat := do
  let b ← readByte p i
  pure (castT T (v ||| castT T (shl T (castT T b.val) (8 * i))))

/-- `load_le<T>(p)`. -/
def load_le (T : UIntType) (p : List Byte) : Option Nat :=
  (List.range (sizeof T)).foldlM (load_le_step T p) 0

/-- One iteration of the loop of `load_be`:
`v = static_cast<T>((v << 8) | static_cast<T>(p[i]))`. -/
def load_be_step (T : UIntType) (p : List Byte) (v i : Nat) : Option Nat := do
  let b ← readByte p i
  pure (castT T (shl T v 8 ||| castT T b.val))

/-- `load_be<T>(p)`. -/
def load_be (T : UIntType) (p : List Byte) : Option Nat :=
  (List.range (sizeof T)).foldlM (load_be_step T p) 0

/-- One iteration of the loop of `store_le`:
`p[i] = static_cast<std::uint8_t>((value >> (8 * i)) & 0xFF)`. -/
def store_le_step (value : Nat) (p : List Byte) (i : Nat) : Option (List Byte) :=
  writeByte p i (castU8 ((value >>> (8 * i)) &&& 0xFF))

/-- `store_le<T>(p, value)`; the result is the buffer after the call. -/
def store_le (T : UIntType) (p : List Byte) (value : Nat) : Option (List Byte) :=
  (List.range (sizeof T)).foldlM (store_le_step value) p

/-- One iteration of the loop of `store_be`:
`p[i] = static_cast<std::uint8_t>((value >> (8 * (sizeof(T) - 1 - i))) & 0xFF)`. -/
def store_be_step (T : UIntType) (value : Nat) (p : List Byte) (i : Nat) :
    Option (List Byte) :=
  writeByte p i (castU8 ((value >>> (8 * (sizeof T - 1 - i))) &&& 0xFF))

/-- `store_be<T>(p, value)`; the result is the buffer after the call. -/
def store_be (T : UIntType) (p : List Byte) (value : Nat) : Option (List Byte) :=
  (List.range (sizeof T)).foldlM (store_be_step T value) p

/-- Byte `k` of `x`, as the contract words it: `(x >> 8k) & 0xFF`. -/
def byteAt (x k : Nat) : Nat := (x >>> (8 * k)) &&& 0xFF

/-- The byte order of the executing machine. The library assumes one of these two
(`is_big_endian` is the negation of `is_little_endian`). -/
inductive Host where
  | little
  | big
  deriving DecidableEq, Repr

/-- The object representation of an `n`-byte unsigned integer `x` on host `h`: its
bytes at increasing addresses, least significant first on a little-endian host and
most significant first on a big-endian one. -/
def Host.objectBytes (h : Host) (n x : Nat) : List Byte :=
  match h with
  | .little => (List.range n).map (fun i => castU8 (x >>> (8 * i)))
  | .big => (List.range n).map (fun i => castU8 (x >>> (8 * (n - 1 - i))))

/-- The value of the unsigned integer object whose bytes at increasing addresses
are `bs`, on host `h`. -/
def Host.objectValue (h : Host) (bs : List Byte) : Nat :=
  match h with
  | .little => ∑ i in Finset.range bs.length, (bs.getD i 0).val * 2 ^ (8 * i)
  | .big => ∑ i in Finset.range bs.length, (bs.getD i 0).val * 2 ^ (8 * (bs.length - 1 - i))

/-- `is_little_endian()` on host `h`: `x = 0x0102` is an object of type
`std::uint16_t`, `p` points to its first byte, the result is `p[0] == 0x02`. -/
def is_little_endian (h : Host) : Bool :=
  readByte (h.objectBytes 2 0x0102) 0 == some 0x02

/-- `is_big_endian()` on host `h`: `!is_little_endian()`. -/
def is_big_endian (h : Host) : Bool := !is_little_endian h

/-! ### The operations on a host

On a host every object of integer type that a function declares (a parameter, the
local accumulator `v` of the loads, the returned result) lives in memory in the
host's byte order: it is written with `Host.objectBytes` and read with
`Host.objectValue`. The buffer is made of single bytes, which have no byte order. -/

/-- `bswap16` on host `h`: the parameter `v` is an object of the host that the body
reads; the result is returned in an object of the host, which the caller reads. -/
def bswap16_on (h : Host) (v : Nat) : Nat :=
  h.objectValue (h.objectBytes 2 (bswap16 (h.objectValue (h.objectBytes 2 v))))

/-- `bswap32` on host `h`, as `bswap16_on`. -/
def bswap32_on (h : Host) (v : Nat) : Nat :=
  h.objectValue (h.objectBytes 4 (bswap32 (h.objectValue (h.objectBytes 4 v))))

/-- `bswap64` on host `h`, as `bswap16_on`. -/
def bswap64_on (h : Host) (v : Nat) : Nat :=
  h.objectValue (h.objectBytes 8 (bswap64 (h.objectValue (h.objectBytes 8 v))))

/-- One iteration of the loop of `load_le` on host `h`: the accumulator `v` is an
object `vObj` of the host, read before the update and written after it. -/
def load_le_step_on (h : Host) (T : UIntType) (p : List Byte) (vObj : List Byte) (i : Nat) :
    Option (List Byte) :=
  (load_le_step T p (h.objectValue vObj) i).map (h.objectBytes (sizeof T))

/-- `load_le<T>` on host `h`: `T v = 0` creates the object, the loop updates it and
`return v` reads it. -/
def load_le_on (h : Host) (T : UIntType) (p : List Byte) : Option Nat :=
  ((List.range (sizeof T)).foldlM (load_le_step_on h T p) (h.objectBytes (sizeof T) 0)).map
    h.objectValue

/-- One iteration of the loop of `load_be` on host `h`, as `load_le_step_on`. -/
def load_be_step_on (h : Host) (T : UIntType) (p : List Byte) (vObj : List Byte) (i : Nat) :
    Option (List Byte) :=
  (load_be_step T p (h.objectValue vObj) i).map (h.objectBytes (sizeof T))

/-- `load_be<T>` on host `h`, as `load_le_on`. -/
def load_be_on (h : Host) (T : UIntType) (p : List Byte) : Option Nat :=
  ((List.range (sizeof T)).foldlM (load_be_step_on h T p) (h.objectBytes (sizeof T) 0)).map
    h.objectValue

/-- `store_le<T>` on host `h`: the parameter `value` is an object of the host, read
in every iteration. -/
def store_le_on (h : Host) (T : UIntType) (p : List Byte) (value : Nat) :
    Option (List Byte) :=
  (List.range (sizeof T)).foldlM
    (fun q i => store_le_step (h.objectValue (h.objectBytes (sizeof T) value)) q i) p

/-- `store_be<T>` on host `h`, as `store_le_on`. -/
def store_be_on (h : Host) (T : UIntType) (p : List Byte) (value : Nat) :
    Option (List Byte) :=
  (List.range (sizeof T)).foldlM
    (fun q i => store_be_step T (h.objectValue (h.objectBytes (sizeof T) value)) q i) p

/-! ### Checked arithmetic

The same loops with every arithmetic hazard made visible: an operation returns `none`
when a shift amount reaches the bit width of `T`, when a shift or a conversion to `T`
drops a set bit, or when the `std::size_t` subtraction would wrap below zero. -/

/-- `static_cast<T>(x)`, `none` when `x` does not fit in `T`. -/
def castT_checked (T : UIntType) (x : Nat) : Option Nat :=
  if x < 2 ^ bits T then some (castT T x) else none

/-- `x << k` on an operand of type `T`, `none` when `k` reaches the bit width of `T` or
a set bit is shifted out of the promoted type. -/
def shl_checked (T : UIntType) (x k : Nat) : Option Nat :=
  if k < bits T ∧ x * 2 ^ k < 2 ^ promotedBits T then some (shl T x k) else none

/-- `x >> k` on an operand of type `T`, `none` when `k` reaches the bit width of `T`. -/
def shr_checked (T : UIntType) (x k : Nat) : Option Nat :=
  if k < bits T then some (x >>> k) else none

/-- `a - b` on `std::size_t`, `none` when it would wrap below zero. -/
def sub_checked (a b : Nat) : Option Nat :=
  if b ≤ a then some (a - b) else none

/-- The iteration of `load_le` (see `load_le_step`) in checked arithmetic. -/
def load_le_step_checked (T : UIntType) (p : List Byte) (v i : Nat) : Option Nat := do
  let b ← readByte p i
  let c ← castT_checked T b.val
  let s ← shl_checked T c (8 * i)
  let t ← castT_checked T s
  castT_checked T (v ||| t)

/-- `load_le<T>(p)` in checked arithmetic. -/
def load_le_checked (T : UIntType) (p : List Byte) : Option Nat :=
  (List.range (sizeof T)).foldlM (load_le_step_checked T p) 0

/-- The iteration of `load_be` (see `load_be_step`) in checked arithmetic. -/
def load_be_step_checked (T : UIntType) (p : List Byte) (v i : Nat) : Option Nat := do
  let b ← readByte p i
  let s ← shl_checked T v 8
  let c ← castT_checked T b.val
  castT_checked T (s ||| c)

/-- `load_be<T>(p)` in checked arithmetic. -/
def load_be_checked (T : UIntType) (p : List Byte) : Option Nat :=
  (List.range (sizeof T)).foldlM (load_be_step_checked T p) 0

/-- The iteration of `store_le` (see `store_le_step`) in checked arithmetic. -/
def store_le_step_checked (T : UIntType) (value : Nat) (p : List Byte) (i : Nat) :
    Option (List Byte) := do
  let s ← shr_checked T value (8 * i)
  writeByte p i (castU8 (s &&& 0xFF))

/-- `store_le<T>(p, value)` in checked arithmetic. -/
def store_le_checked (T : UIntType) (p : List Byte) (value : Nat) : Option (List Byte) :=
  (List.range (sizeof T)).foldlM (store_le_step_checked T value) p

/-- The iteration of `store_be` (see `store_be_step`) in checked arithmetic; the index
`sizeof(T) - 1 - i` is computed with two checked subtractions. -/
def store_be_step_checked (T : UIntType) (value : Nat) (p : List Byte) (i : Nat) :
    Option (List Byte) := do
  let a ← sub_checked (sizeof T) 1
  let j ← sub_checked a i
  let s ← shr_checked T value (8 * j)
  writeByte p i (castU8 (s &&& 0xFF))

/-- `store_be<T>(p, value)` in checked arithmetic. -/
def store_be_checked (T : UIntType) (p : List Byte) (value : Nat) : Option (List Byte) :=
  (List.range (sizeof T)).foldlM (store_be_step_checked T value) p

/-! ## Arithmetic of bytes -/

/-- A bitwise or of a multiple of `2 ^ i` with a number below `2 ^ i` is their sum. -/
theorem or_eq_add_of_dvd (x y i : Nat) (hx : 2 ^ i ∣ x) (hy : y < 2 ^ i) :
    x ||| y = x + y := by
  obtain ⟨a, rfl⟩ := hx
  exact (Nat.mul_add_lt_is_or hy a).symm

/-- Masking with `0xFF << k` keeps the eight bits from position `k`, in place. -/
theorem and_mask (v k : Nat) : v &&& (255 * 2 ^ k) = (v / 2 ^ k % 256) * 2 ^ k := by
  apply Nat.eq_of_testBit_eq
  intro i
  have h255 : (255 : Nat) = 2 ^ 8 - 1 := by norm_num
  have h256 : (256 : Nat) = 2 ^ 8 := by norm_num
  rw [h255, h256, ← Nat.shiftLeft_eq, ← Nat.shiftLeft_eq, ← Nat.shiftRight_eq_div_pow]
  simp only [Nat.testBit_and, Nat.testBit_shiftLeft, Nat.testBit_two_pow_sub_one,
    Nat.testBit_mod_two_pow, Nat.testBit_shiftRight]
  by_cases h : k ≤ i
  · have : k + (i - k) = i := by omega
    simp [h, this, Bool.and_comm]
  · simp [h]

/-- Byte `k` of `x` in arithmetic form. -/
theorem byteAt_eq (x k : Nat) : byteAt x k = x / 2 ^ (8 * k) % 256 := by
  unfold byteAt
  rw [Nat.shiftRight_eq_div_pow]
  exact Nat.and_pow_two_sub_one_eq_mod _ 8

theorem byteAt_lt (x k : Nat) : byteAt x k < 256 := by
  rw [byteAt_eq]
  exact Nat.mod_lt _ (by norm_num)

/-! ## Byte swaps as sums of bytes -/

theorem bswap16_eq (v : Nat) (hv : v < 2 ^ 16) :
    bswap16 v = v % 256 * 2 ^ 8 + v / 2 ^ 8 % 256 := by
  unfold bswap16
  rw [Nat.shiftRight_eq_div_pow, Nat.shiftLeft_eq, Nat.lor_comm,
    or_eq_add_of_dvd _ _ 8 (Dvd.intro_left _ rfl) (by omega)]
  have h : v * 2 ^ 8 + v / 2 ^ 8 = 2 ^ 16 * (v / 2 ^ 8) + (v % 256 * 2 ^ 8 + v / 2 ^ 8) := by
    omega
  have h1 : v / 2 ^ 8 < 256 := by omega
  rw [h, Nat.mul_add_mod, Nat.mod_eq_of_lt (a := v / 2 ^ 8) h1, Nat.mod_eq_of_lt (by omega)]

theorem bswap32_eq (v : Nat) :
    bswap32 v = v % 256 * 2 ^ 24 + v / 2 ^ 8 % 256 * 2 ^ 16 + v / 2 ^ 16 % 256 * 2 ^ 8
      + v / 2 ^ 24 % 256 := by
  have m0 : v &&& 0x000000FF = v % 256 := by simpa using and_mask v 0
  have m1 : v &&& 0x0000FF00 = v / 2 ^ 8 % 256 * 2 ^ 8 := and_mask v 8
  have m2 : v &&& 0x00FF0000 = v / 2 ^ 16 % 256 * 2 ^ 16 := and_mask v 16
  have m3 : v &&& 0xFF000000 = v / 2 ^ 24 % 256 * 2 ^ 24 := and_mask v 24
  unfold bswap32
  rw [m0, m1, m2, m3]
  simp only [Nat.shiftLeft_eq, Nat.shiftRight_eq_div_pow]
  have h0 : v % 256 < 256 := Nat.mod_lt _ (by norm_num)
  have h1 : v / 2 ^ 8 % 256 < 256 := Nat.mod_lt _ (by norm_num)
  have h2 : v / 2 ^ 16 % 256 < 256 := Nat.mod_lt _ (by norm_num)
  have h3 : v / 2 ^ 24 % 256 < 256 := Nat.mod_lt _ (by norm_num)
  generalize v % 256 = d0 at h0 ⊢
  generalize v / 2 ^ 8 % 256 = d1 at h1 ⊢
  generalize v / 2 ^ 16 % 256 = d2 at h2 ⊢
  generalize v / 2 ^ 24 % 256 = d3 at h3 ⊢
  have t0 : d0 * 2 ^ 24 % 2 ^ 32 = d0 * 2 ^ 24 := by omega
  have t1 : d1 * 2 ^ 8 * 2 ^ 8 % 2 ^ 32 = d1 * 2 ^ 16 := by omega
  have t2 : d2 * 2 ^ 16 / 2 ^ 8 = d2 * 2 ^ 8 := by omega
  have t3 : d3 * 2 ^ 24 / 2 ^ 24 = d3 := by omega
  have e1 : d0 * 2 ^ 24 ||| d1 * 2 ^ 16 = d0 * 2 ^ 24 + d1 * 2 ^ 16 :=
    or_eq_add_of_dvd _ _ 24 (by omega) (by omega)
  have e2 : d0 * 2 ^ 24 + d1 * 2 ^ 16 ||| d2 * 2 ^ 8 = d0 * 2 ^ 24 + d1 * 2 ^ 16 + d2 * 2 ^ 8 :=
    or_eq_add_of_dvd _ _ 16 (by omega) (by omega)
  have e3 : d0 * 2 ^ 24 + d1 * 2 ^ 16 + d2 * 2 ^ 8 ||| d3
      = d0 * 2 ^ 24 + d1 * 2 ^ 16 + d2 * 2 ^ 8 + d3 :=
    or_eq_add_of_dvd _ _ 8 (by omega) (by omega)
  rw [t0, t1, t2, t3, e1, e2, e3]

theorem bswap64_eq (v : Nat) :
    bswap64 v = v % 256 * 2 ^ 56 + v / 2 ^ 8 % 256 * 2 ^ 48 + v / 2 ^ 16 % 256 * 2 ^ 40
      + v / 2 ^ 24 % 256 * 2 ^ 32 + v / 2 ^ 32 % 256 * 2 ^ 24 + v / 2 ^ 40 % 256 * 2 ^ 16
      + v / 2 ^ 48 % 256 * 2 ^ 8 + v / 2 ^ 56 % 256 := by
  have m0 : v &&& 0x00000000000000FF = v % 256 := by simpa using and_mask v 0
  have m1 : v &&& 0x000000000000FF00 = v / 2 ^ 8 % 256 * 2 ^ 8 := and_mask v 8
  have m2 : v &&& 0x0000000000FF0000 = v / 2 ^ 16 % 256 * 2 ^ 16 := and_mask v 16
  have m3 : v &&& 0x00000000FF000000 = v / 2 ^ 24 % 256 * 2 ^ 24 := and_mask v 24
  have m4 : v &&& 0x000000FF00000000 = v / 2 ^ 32 % 256 * 2 ^ 32 := and_mask v 32
  have m5 : v &&& 0x0000FF0000000000 = v / 2 ^ 40 % 256 * 2 ^ 40 := and_mask v 40
  have m6 : v &&& 0x00FF000000000000 = v / 2 ^ 48 % 256 * 2 ^ 48 := and_mask v 48
  have m7 : v &&& 0xFF00000000000000 = v / 2 ^ 56 % 256 * 2 ^ 56 := and_mask v 56
  unfold bswap64
  rw [m0, m1, m2, m3, m4, m5, m6, m7]
  simp only [Nat.shiftLeft_eq, Nat.shiftRight_eq_div_pow]
  have h0 : v % 256 < 256 := Nat.mod_lt _ (by norm_num)
  have h1 : v / 2 ^ 8 % 256 < 256 := Nat.mod_lt _ (by norm_num)
  have h2 : v / 2 ^ 16 % 256 < 256 := Nat.mod_lt _ (by norm_num)
  have h3 : v / 2 ^ 24 % 256 < 256 := Nat.mod_lt _ (by norm_num)
  have h4 : v / 2 ^ 32 % 256 < 256 := Nat.mod_lt _ (by norm_num)
  have h5 : v / 2 ^ 40 % 256 < 256 := Nat.mod_lt _ (by norm_num)
  have h6 : v / 2 ^ 48 % 256 < 256 := Nat.mod_lt _ (by norm_num)
  have h7 : v / 2 ^ 56 % 256 < 256 := Nat.mod_lt _ (by norm_num)
  generalize v % 256 = d0 at h0 ⊢
  generalize v / 2 ^ 8 % 256 = d1 at h1 ⊢
  generalize v / 2 ^ 16 % 256 = d2 at h2 ⊢
  generalize v / 2 ^ 24 % 256 = d3 at h3 ⊢
  generalize v / 2 ^ 32 % 256 = d4 at h4 ⊢
  generalize v / 2 ^ 40 % 256 = d5 at h5 ⊢
  generalize v / 2 ^ 48 % 256 = d6 at h6 ⊢
  generalize v / 2 ^ 56 % 256 = d7 at h7 ⊢
  have t0 : d0 * 2 ^ 56 % 2 ^ 64 = d0 * 2 ^ 56 := by omega
  have t1 : d1 * 2 ^ 8 * 2 ^ 40 % 2 ^ 64 = d1 * 2 ^ 48 := by omega
  have t2 : d2 * 2 ^ 16 * 2 ^ 24 % 2 ^ 64 = d2 * 2 ^ 40 := by omega
  have t3 : d3 * 2 ^ 24 * 2 ^ 8 % 2 ^ 64 = d3 * 2 ^ 32 := by omega
  have t4 : d4 * 2 ^ 32 / 2 ^ 8 = d4 * 2 ^ 24 := by omega
  have t5 : d5 * 2 ^ 40 / 2 ^ 24 = d5 * 2 ^ 16 := by omega
  have t6 : d6 * 2 ^ 48 / 2 ^ 40 = d6 * 2 ^ 8 := by omega
  have t7 : d7 * 2 ^ 56 / 2 ^ 56 = d7 := by omega
  have e1 : d0 * 2 ^ 56 ||| d1 * 2 ^ 48
      = d0 * 2 ^ 56 + d1 * 2 ^ 48 :=
    or_eq_add_of_dvd _ _ 56 (by omega) (by omega)
  have e2 : d0 * 2 ^ 56 + d1 * 2 ^ 48 ||| d2 * 2 ^ 40
      = d0 * 2 ^ 56 + d1 * 2 ^ 48 + d2 * 2 ^ 40 :=
    or_eq_add_of_dvd _ _ 48 (by omega) (by omega)
  have e3 : d0 * 2 ^ 56 + d1 * 2 ^ 48 + d2 * 2 ^ 40 ||| d3 * 2 ^ 32
      = d0 * 2 ^ 56 + d1 * 2 ^ 48 + d2 * 2 ^ 40 + d3 * 2 ^ 32 :=
    or_eq_add_of_dvd _ _ 40 (by omega) (by omega)
  have e4 : d0 * 2 ^ 56 + d1 * 2 ^ 48 + d2 * 2 ^ 40 + d3 * 2 ^ 32 ||| d4 * 2 ^ 24
      = d0 * 2 ^ 56 + d1 * 2 ^ 48 + d2 * 2 ^ 40 + d3 * 2 ^ 32 + d4 * 2 ^ 24 :=
    or_eq_add_of_dvd _ _ 32 (by omega) (by omega)
  have e5 : d0 * 2 ^ 56 + d1 * 2 ^ 48 + d2 * 2 ^ 40 + d3 * 2 ^ 32 + d4 * 2 ^ 24 ||| d5 * 2 ^ 16
      = d0 * 2 ^ 56 + d1 * 2 ^ 48 + d2 * 2 ^ 40 + d3 * 2 ^ 32 + d4 * 2 ^ 24 + d5 * 2 ^ 16 :=
    or_eq_add_of_dvd _ _ 24 (by omega) (by omega)
  have e6 : d0 * 2 ^ 56 + d1 * 2 ^ 48 + d2 * 2 ^ 40 + d3 * 2 ^ 32 + d4 * 2 ^ 24 + d5 * 2 ^ 16 ||| d6 * 2 ^ 8
      = d0 * 2 ^ 56 + d1 * 2 ^ 48 + d2 * 2 ^ 40 + d3 * 2 ^ 32 + d4 * 2 ^ 24 + d5 * 2 ^ 16 + d6 * 2 ^ 8 :=
    or_eq_add_of_dvd _ _ 16 (by omega) (by omega)
  have e7 : d0 * 2 ^ 56 + d1 * 2 ^ 48 + d2 * 2 ^ 40 + d3 * 2 ^ 32 + d4 * 2 ^ 24 + d5 * 2 ^ 16 + d6 * 2 ^ 8 ||| d7
      = d0 * 2 ^ 56 + d1 * 2 ^ 48 + d2 * 2 ^ 40 + d3 * 2 ^ 32 + d4 * 2 ^ 24 + d5 * 2 ^ 16 + d6 * 2 ^ 8 + d7 :=
    or_eq_add_of_dvd _ _ 8 (by omega) (by omega)
  rw [t0, t1, t2, t3, t4, t5, t6, t7, e1, e2, e3, e4, e5, e6, e7]

/-- The `n` low bytes of `v`, each weighted by its position, add up to `v` modulo
`2 ^ (8 * n)`. -/
theorem sum_bytes (v n : Nat) :
    ∑ i in Finset.range n, v / 2 ^ (8 * i) % 256 * 2 ^ (8 * i) = v % 2 ^ (8 * n) := by
  induction n with
  | zero => simp [Nat.mod_one]
  | succ n ih =>
    rw [Finset.sum_range_succ, ih]
    have h : 2 ^ (8 * (n + 1)) = 2 ^ (8 * n) * 256 := by
      rw [Nat.mul_add, pow_add]
      norm_num
    rw [h, Nat.mod_mul, Nat.mul_comm (2 ^ (8 * n))]

theorem bytes_sum16 (v : Nat) (hv : v < 2 ^ 16) :
    v % 256 + v / 2 ^ 8 % 256 * 2 ^ 8 = v := by
  have h := sum_bytes v 2
  rw [Nat.mod_eq_of_lt (by simpa using hv)] at h
  simpa [Finset.sum_range_succ] using h

theorem bytes_sum32 (v : Nat) (hv : v < 2 ^ 32) :
    v % 256 + v / 2 ^ 8 % 256 * 2 ^ 8 + v / 2 ^ 16 % 256 * 2 ^ 16
      + v / 2 ^ 24 % 256 * 2 ^ 24 = v := by
  have h := sum_bytes v 4
  rw [Nat.mod_eq_of_lt (by simpa using hv)] at h
  simpa [Finset.sum_range_succ] using h

theorem bytes_sum64 (v : Nat) (hv : v < 2 ^ 64) :
    v % 256 + v / 2 ^ 8 % 256 * 2 ^ 8 + v / 2 ^ 16 % 256 * 2 ^ 16
      + v / 2 ^ 24 % 256 * 2 ^ 24 + v / 2 ^ 32 % 256 * 2 ^ 32 + v / 2 ^ 40 % 256 * 2 ^ 40
      + v / 2 ^ 48 % 256 * 2 ^ 48 + v / 2 ^ 56 % 256 * 2 ^ 56 = v := by
  have h := sum_bytes v 8
  rw [Nat.mod_eq_of_lt (by simpa using hv)] at h
  simpa [Finset.sum_range_succ] using h

/-- The bytes of a 16-bit number given by its 2 bytes, most significant first. -/
theorem bytes_of_sum16 (d0 d1 : Nat)
    (h0 : d0 < 256) (h1 : d1 < 256) :
    (d0 * 2 ^ 8 + d1) % 256
      = d1 ∧
    (d0 * 2 ^ 8 + d1) / 2 ^ 8 % 256
      = d0 := by
  refine ⟨by omega, by omega⟩

/-- The bytes of a 32-bit number given by its 4 bytes, most significant first. -/
theorem bytes_of_sum32 (d0 d1 d2 d3 : Nat)
    (h0 : d0 < 256) (h1 : d1 < 256) (h2 : d2 < 256) (h3 : d3 < 256) :
    (d0 * 2 ^ 24 + d1 * 2 ^ 16 + d2 * 2 ^ 8 + d3) % 256
      = d3 ∧
    (d0 * 2 ^ 24 + d1 * 2 ^ 16 + d2 * 2 ^ 8 + d3) / 2 ^ 8 % 256
      = d2 ∧
    (d0 * 2 ^ 24 + d1 * 2 ^ 16 + d2 * 2 ^ 8 + d3) / 2 ^ 16 % 256
      = d1 ∧
    (d0 * 2 ^ 24 + d1 * 2 ^ 16 + d2 * 2 ^ 8 + d3) / 2 ^ 24 % 256
      = d0 := by
  refine ⟨by omega, by omega, by omega, by omega⟩

/-- The bytes of a 64-bit number given by its 8 bytes, most significant first. -/
theorem bytes_of_sum64 (d0 d1 d2 d3 d4 d5 d6 d7 : Nat)
    (h0 : d0 < 256) (h1 : d1 < 256) (h2 : d2 < 256) (h3 : d3 < 256) (h4 : d4 < 256) (h5 : d5 < 256) (h6 : d6 < 256) (h7 : d7 < 256) :
    (d0 * 2 ^ 56 + d1 * 2 ^ 48 + d2 * 2 ^ 40 + d3 * 2 ^ 32 + d4 * 2 ^ 24 + d5 * 2 ^ 16 + d6 * 2 ^ 8 + d7) % 256
      = d7 ∧
    (d0 * 2 ^ 56 + d1 * 2 ^ 48 + d2 * 2 ^ 40 + d3 * 2 ^ 32 + d4 * 2 ^ 24 + d5 * 2 ^ 16 + d6 * 2 ^ 8 + d7) / 2 ^ 8 % 256
      = d6 ∧
    (d0 * 2 ^ 56 + d1 * 2 ^ 48 + d2 * 2 ^ 40 + d3 * 2 ^ 32 + d4 * 2 ^ 24 + d5 * 2 ^ 16 + d6 * 2 ^ 8 + d7) / 2 ^ 16 % 256
      = d5 ∧
    (d0 * 2 ^ 56 + d1 * 2 ^ 48 + d2 * 2 ^ 40 + d3 * 2 ^ 32 + d4 * 2 ^ 24 + d5 * 2 ^ 16 + d6 * 2 ^ 8 + d7) / 2 ^ 24 % 256
      = d4 ∧
    (d0 * 2 ^ 56 + d1 * 2 ^ 48 + d2 * 2 ^ 40 + d3 * 2 ^ 32 + d4 * 2 ^ 24 + d5 * 2 ^ 16 + d6 * 2 ^ 8 + d7) / 2 ^ 32 % 256
      = d3 ∧
    (d0 * 2 ^ 56 + d1 * 2 ^ 48 + d2 * 2 ^ 40 + d3 * 2 ^ 32 + d4 * 2 ^ 24 + d5 * 2 ^ 16 + d6 * 2 ^ 8 + d7) / 2 ^ 40 % 256
      = d2 ∧
    (d0 * 2 ^ 56 + d1 * 2 ^ 48 + d2 * 2 ^ 40 + d3 * 2 ^ 32 + d4 * 2 ^ 24 + d5 * 2 ^ 16 + d6 * 2 ^ 8 + d7) / 2 ^ 48 % 256
      = d1 ∧
    (d0 * 2 ^ 56 + d1 * 2 ^ 48 + d2 * 2 ^ 40 + d3 * 2 ^ 32 + d4 * 2 ^ 24 + d5 * 2 ^ 16 + d6 * 2 ^ 8 + d7) / 2 ^ 56 % 256
      = d0 := by
  refine ⟨by omega, by omega, by omega, by omega, by omega, by omega, by omega, by omega⟩

/-! ## Byte swaps -/

/-- C3. Each of `bswap16`, `bswap32`, `bswap64` reverses the bytes of its input:
byte `n - 1 - i` of the result is byte `i` of the input (`n = 2, 4, 8`), and the
three known vectors of the test hold. -/
theorem bswap_reverses_bytes (v i : Nat) :
    (v < 2 ^ 16 → i < 2 → byteAt (bswap16 v) (2 - 1 - i) = byteAt v i) ∧
    (v < 2 ^ 32 → i < 4 → byteAt (bswap32 v) (4 - 1 - i) = byteAt v i) ∧
    (v < 2 ^ 64 → i < 8 → byteAt (bswap64 v) (8 - 1 - i) = byteAt v i) ∧
    bswap16 0x1122 = 0x2211 ∧ bswap32 0x11223344 = 0x44332211 ∧
    bswap64 0x0102030405060708 = 0x0807060504030201 := by
  refine ⟨fun hv hi => ?_, fun _ hi => ?_, fun _ hi => ?_, by decide, by decide, by decide⟩
  · rw [bswap16_eq v hv]
    have h0 : v % 256 < 256 := Nat.mod_lt _ (by norm_num)
    have h1 : v / 2 ^ 8 % 256 < 256 := Nat.mod_lt _ (by norm_num)
    interval_cases i <;>
      simp only [byteAt_eq, Nat.reduceMul, Nat.reduceSub, Nat.pow_zero, Nat.div_one]
    all_goals
      generalize v % 256 = d0 at h0 ⊢
      generalize v / 2 ^ 8 % 256 = d1 at h1 ⊢
      omega
  · rw [bswap32_eq v]
    have h0 : v % 256 < 256 := Nat.mod_lt _ (by norm_num)
    have h1 : v / 2 ^ 8 % 256 < 256 := Nat.mod_lt _ (by norm_num)
    have h2 : v / 2 ^ 16 % 256 < 256 := Nat.mod_lt _ (by norm_num)
    have h3 : v / 2 ^ 24 % 256 < 256 := Nat.mod_lt _ (by norm_num)
    interval_cases i <;>
      simp only [byteAt_eq, Nat.reduceMul, Nat.reduceSub, Nat.pow_zero, Nat.div_one]
    all_goals
      generalize v % 256 = d0 at h0 ⊢
      generalize v / 2 ^ 8 % 256 = d1 at h1 ⊢
      generalize v / 2 ^ 16 % 256 = d2 at h2 ⊢
      generalize v / 2 ^ 24 % 256 = d3 at h3 ⊢
      omega
  · rw [bswap64_eq v]
    have h0 : v % 256 < 256 := Nat.mod_lt _ (by norm_num)
    have h1 : v / 2 ^ 8 % 256 < 256 := Nat.mod_lt _ (by norm_num)
    have h2 : v / 2 ^ 16 % 256 < 256 := Nat.mod_lt _ (by norm_num)
    have h3 : v / 2 ^ 24 % 256 < 256 := Nat.mod_lt _ (by norm_num)
    have h4 : v / 2 ^ 32 % 256 < 256 := Nat.mod_lt _ (by norm_num)
    have h5 : v / 2 ^ 40 % 256 < 256 := Nat.mod_lt _ (by norm_num)
    have h6 : v / 2 ^ 48 % 256 < 256 := Nat.mod_lt _ (by norm_num)
    have h7 : v / 2 ^ 56 % 256 < 256 := Nat.mod_lt _ (by norm_num)
    interval_cases i <;>
      simp only [byteAt_eq, Nat.reduceMul, Nat.reduceSub, Nat.pow_zero, Nat.div_one]
    all_goals
      generalize v % 256 = d0 at h0 ⊢
      generalize v / 2 ^ 8 % 256 = d1 at h1 ⊢
      generalize v / 2 ^ 16 % 256 = d2 at h2 ⊢
      generalize v / 2 ^ 24 % 256 = d3 at h3 ⊢
      generalize v / 2 ^ 32 % 256 = d4 at h4 ⊢
      generalize v / 2 ^ 40 % 256 = d5 at h5 ⊢
      generalize v / 2 ^ 48 % 256 = d6 at h6 ⊢
      generalize v / 2 ^ 56 % 256 = d7 at h7 ⊢
      omega

/-- Witness of C3 at `0x1122`, `0x11223344` and `0x0102030405060708`. -/
theorem bswap_reverses_bytes_witness :
    byteAt (bswap16 0x1122) (2 - 1 - 1) = byteAt 0x1122 1 ∧
    byteAt (bswap32 0x11223344) (4 - 1 - 1) = byteAt 0x11223344 1 ∧
    byteAt (bswap64 0x0102030405060708) (8 - 1 - 1) = byteAt 0x0102030405060708 1 :=
  ⟨(bswap_reverses_bytes 0x1122 1).1 (by decide) (by decide),
   (bswap_reverses_bytes 0x11223344 1).2.1 (by decide) (by decide),
   (bswap_reverses_bytes 0x0102030405060708 1).2.2.1 (by decide) (by decide)⟩

/-- C4. Each byte swap is an involution on the values of its width. -/
theorem bswap_involution (v : Nat) :
    (v < 2 ^ 16 → bswap16 (bswap16 v) = v) ∧
    (v < 2 ^ 32 → bswap32 (bswap32 v) = v) ∧
    (v < 2 ^ 64 → bswap64 (bswap64 v) = v) := by
  refine ⟨fun hv => ?_, fun hv => ?_, fun hv => ?_⟩
  · have hs := bytes_sum16 v hv
    have hw : bswap16 v < 2 ^ 16 := Nat.mod_lt _ (by norm_num)
    rw [bswap16_eq _ hw, bswap16_eq v hv]
    have h0 : v % 256 < 256 := Nat.mod_lt _ (by norm_num)
    have h1 : v / 2 ^ 8 % 256 < 256 := Nat.mod_lt _ (by norm_num)
    generalize v % 256 = d0 at h0 hs ⊢
    generalize v / 2 ^ 8 % 256 = d1 at h1 hs ⊢
    obtain ⟨a0, a1⟩ := bytes_of_sum16 d0 d1 h0 h1
    rw [a0, a1]
    omega
  · have hs := bytes_sum32 v hv
    rw [bswap32_eq (bswap32 v), bswap32_eq v]
    have h0 : v % 256 < 256 := Nat.mod_lt _ (by norm_num)
    have h1 : v / 2 ^ 8 % 256 < 256 := Nat.mod_lt _ (by norm_num)
    have h2 : v / 2 ^ 16 % 256 < 256 := Nat.mod_lt _ (by norm_num)
    have h3 : v / 2 ^ 24 % 256 < 256 := Nat.mod_lt _ (by norm_num)
    generalize v % 256 = d0 at h0 hs ⊢
    generalize v / 2 ^ 8 % 256 = d1 at h1 hs ⊢
    generalize v / 2 ^ 16 % 256 = d2 at h2 hs ⊢
    generalize v / 2 ^ 24 % 256 = d3 at h3 hs ⊢
    obtain ⟨a0, a1, a2, a3⟩ := bytes_of_sum32 d0 d1 d2 d3 h0 h1 h2 h3
    rw [a0, a1, a2, a3]
    omega
  · have hs := bytes_sum64 v hv
    rw [bswap64_eq (bswap64 v), bswap64_eq v]
    have h0 : v % 256 < 256 := Nat.mod_lt _ (by norm_num)
    have h1 : v / 2 ^ 8 % 256 < 256 := Nat.mod_lt _ (by norm_num)
    have h2 : v / 2 ^ 16 % 256 < 256 := Nat.mod_lt _ (by norm_num)
    have h3 : v / 2 ^ 24 % 256 < 256 := Nat.mod_lt _ (by norm_num)
    have h4 : v / 2 ^ 32 % 256 < 256 := Nat.mod_lt _ (by norm_num)
    have h5 : v / 2 ^ 40 % 256 < 256 := Nat.mod_lt _ (by norm_num)
    have h6 : v / 2 ^ 48 % 256 < 256 := Nat.mod_lt _ (by norm_num)
    have h7 : v / 2 ^ 56 % 256 < 256 := Nat.mod_lt _ (by norm_num)
    generalize v % 256 = d0 at h0 hs ⊢
    generalize v / 2 ^ 8 % 256 = d1 at h1 hs ⊢
    generalize v / 2 ^ 16 % 256 = d2 at h2 hs ⊢
    generalize v / 2 ^ 24 % 256 = d3 at h3 hs ⊢
    generalize v / 2 ^ 32 % 256 = d4 at h4 hs ⊢
    generalize v / 2 ^ 40 % 256 = d5 at h5 hs ⊢
    generalize v / 2 ^ 48 % 256 = d6 at h6 hs ⊢
    generalize v / 2 ^ 56 % 256 = d7 at h7 hs ⊢
    obtain ⟨a0, a1, a2, a3, a4, a5, a6, a7⟩ := bytes_of_sum64 d0 d1 d2 d3 d4 d5 d6 d7 h0 h1 h2 h3 h4 h5 h6 h7
    rw [a0, a1, a2, a3, a4, a5, a6, a7]
    omega

/-- Witness of C4 at `0x1122`, `0x11223344` and `0x0102030405060708`. -/
theorem bswap_involution_witness :
    bswap16 (bswap16 0x1122) = 0x1122 ∧ bswap32 (bswap32 0x11223344) = 0x11223344 ∧
    bswap64 (bswap64 0x0102030405060708) = 0x0102030405060708 :=
  ⟨(bswap_involution 0x1122).1 (by decide), (bswap_involution 0x11223344).2.1 (by decide),
   (bswap_involution 0x0102030405060708).2.2 (by decide)⟩

/-! ## The loops -/

/-- Writing `f i` at every index `i < n`, in increasing order, succeeds on a buffer
of at least `n` bytes and replaces exactly its first `n` bytes. -/
theorem foldlM_writeByte (f : Nat → Byte) (n : Nat) (p : List Byte) (h : n ≤ p.length) :
    (List.range n).foldlM (fun q i => writeByte q i (f i)) p
      = some ((List.range n).map f ++ p.drop n) := by
  induction n with
  | zero => simp
  | succ n ih =>
    have hn : n < p.length := by omega
    rw [List.range_succ, List.foldlM_append, ih (by omega)]
    have hlen : ((List.range n).map f).length = n := by simp
    have hd : p.drop n = p[n] :: p.drop (n + 1) := by
      rw [List.drop_eq_getElem_cons hn]
    simp only [Option.bind_eq_bind, Option.some_bind, List.foldlM_cons, List.foldlM_nil,
      writeByte, List.length_append, hlen, List.length_drop]
    rw [if_pos (by omega)]
    simp only [List.set_append, hlen, Nat.lt_irrefl, if_false, Nat.sub_self, List.map_append,
      List.map_cons, List.map_nil, List.append_assoc, List.singleton_append]
    rw [hd, List.set_cons_zero]
    rfl

theorem castT_of_lt (T : UIntType) (x : Nat) (h : x < 2 ^ bits T) : castT T x = x :=
  Nat.mod_eq_of_lt h

theorem bits_le_promotedBits (T : UIntType) : bits T ≤ promotedBits T := by
  cases T <;> decide

theorem shl_of_lt (T : UIntType) (x k : Nat) (h : x * 2 ^ k < 2 ^ bits T) :
    shl T x k = x * 2 ^ k := by
  unfold shl
  rw [Nat.shiftLeft_eq]
  exact Nat.mod_eq_of_lt (lt_of_lt_of_le h
    (Nat.pow_le_pow_right (by norm_num) (bits_le_promotedBits T)))

/-- A sum of `k` bytes weighted little-endian is below `2 ^ (8 * k)`. -/
theorem sum_le_lt (g : Nat → Nat) (hg : ∀ i, g i < 256) (k : Nat) :
    ∑ i in Finset.range k, g i * 2 ^ (8 * i) < 2 ^ (8 * k) := by
  induction k with
  | zero => simp
  | succ k ih =>
    rw [Finset.sum_range_succ]
    have h : 2 ^ (8 * (k + 1)) = 256 * 2 ^ (8 * k) := by
      rw [Nat.mul_add, pow_add]
      norm_num [Nat.mul_comm]
    have hk := hg k
    have : g k * 2 ^ (8 * k) ≤ 255 * 2 ^ (8 * k) := Nat.mul_le_mul_right _ (by omega)
    omega

theorem readByte_of_lt (p : List Byte) (i : Nat) (h : i < p.length) :
    readByte p i = some (p.getD i 0) := by
  unfold readByte
  rw [List.getD_eq_getElem?_getD, List.getElem?_eq_getElem h]
  rfl

theorem pow_le_bits (T : UIntType) (k : Nat) (hk : k ≤ sizeof T) :
    2 ^ (8 * k) ≤ 2 ^ bits T :=
  Nat.pow_le_pow_right (by norm_num) (Nat.mul_le_mul_left 8 hk)

theorem castT_byte (T : UIntType) (b : Byte) : castT T b.val = b.val := by
  have hb := b.isLt
  cases T <;> exact Nat.mod_eq_of_lt (by simp only [bits, sizeof]; omega)

/-- The loop of `load_le`, run for `k ≤ sizeof T` iterations on a buffer of at least
`k` bytes, yields the little-endian value of the first `k` bytes. -/
theorem load_le_loop (T : UIntType) (p : List Byte) (k : Nat) (hk : k ≤ sizeof T)
    (hp : k ≤ p.length) :
    (List.range k).foldlM (load_le_step T p) 0
      = some (∑ i in Finset.range k, (p.getD i 0).val * 2 ^ (8 * i)) := by
  induction k with
  | zero => simp
  | succ k ih =>
    rw [List.range_succ, List.foldlM_append, ih (by omega) (by omega)]
    have hb : (p.getD k 0).val < 256 := (p.getD k 0).isLt
    have hs := sum_le_lt (fun i => (p.getD i 0).val) (fun i => (p.getD i 0).isLt) k
    have hs' := sum_le_lt (fun i => (p.getD i 0).val) (fun i => (p.getD i 0).isLt) (k + 1)
    have hT := pow_le_bits T (k + 1) hk
    have h8 : 2 ^ (8 * (k + 1)) = 256 * 2 ^ (8 * k) := by
      rw [Nat.mul_add, pow_add]
      norm_num [Nat.mul_comm]
    have hpos : 0 < 2 ^ (8 * k) := Nat.two_pow_pos _
    have hterm : (p.getD k 0).val * 2 ^ (8 * k) < 2 ^ bits T := by
      have : (p.getD k 0).val * 2 ^ (8 * k) ≤ 255 * 2 ^ (8 * k) :=
        Nat.mul_le_mul_right _ (by omega)
      omega
    have hc := castT_byte T (p.getD k 0)
    simp only [Option.bind_eq_bind, Option.some_bind, List.foldlM_cons, List.foldlM_nil,
      load_le_step, readByte_of_lt p k (by omega), hc, shl_of_lt T _ _ hterm,
      castT_of_lt T _ hterm]
    rw [Nat.lor_comm, or_eq_add_of_dvd _ _ (8 * k) (Dvd.intro_left _ rfl) hs, Nat.add_comm,
      ← Finset.sum_range_succ (fun i => (p.getD i 0).val * 2 ^ (8 * i)),
      castT_of_lt T _ (lt_of_lt_of_le hs' hT)]
    rfl
/-- Appending one byte to a big-endian sum shifts the earlier bytes up by eight bits. -/
theorem sum_be_succ (g : Nat → Nat) (k : Nat) :
    ∑ i in Finset.range (k + 1), g i * 2 ^ (8 * (k + 1 - 1 - i))
      = (∑ i in Finset.range k, g i * 2 ^ (8 * (k - 1 - i))) * 2 ^ 8 + g k := by
  rw [Finset.sum_range_succ, Finset.sum_mul]
  congr 1
  · apply Finset.sum_congr rfl
    intro i hi
    have hi' : i < k := Finset.mem_range.mp hi
    have : 8 * (k + 1 - 1 - i) = 8 * (k - 1 - i) + 8 := by omega
    rw [this, pow_add, Nat.mul_assoc]
  · simp

/-- A sum of `k` bytes weighted big-endian is below `2 ^ (8 * k)`. -/
theorem sum_be_lt (g : Nat → Nat) (hg : ∀ i, g i < 256) (k : Nat) :
    ∑ i in Finset.range k, g i * 2 ^ (8 * (k - 1 - i)) < 2 ^ (8 * k) := by
  rw [← Finset.sum_range_reflect]
  have h := sum_le_lt (fun j => g (k - 1 - j)) (fun j => hg _) k
  refine lt_of_le_of_lt (le_of_eq ?_) h
  apply Finset.sum_congr rfl
  intro j hj
  have hj' : j < k := Finset.mem_range.mp hj
  have : k - 1 - (k - 1 - j) = j := by omega
  simp only [this]

/-- The loop of `load_be`, run for `k ≤ sizeof T` iterations on a buffer of at least
`k` bytes, yields the big-endian value of the first `k` bytes. -/
theorem load_be_loop (T : UIntType) (p : List Byte) (k : Nat) (hk : k ≤ sizeof T)
    (hp : k ≤ p.length) :
    (List.range k).foldlM (load_be_step T p) 0
      = some (∑ i in Finset.range k, (p.getD i 0).val * 2 ^ (8 * (k - 1 - i))) := by
  induction k with
  | zero => simp
  | succ k ih =>
    rw [List.range_succ, List.foldlM_append, ih (by omega) (by omega)]
    have hb : (p.getD k 0).val < 256 := (p.getD k 0).isLt
    have hs := sum_be_lt (fun i => (p.getD i 0).val) (fun i => (p.getD i 0).isLt) k
    have hs' := sum_be_lt (fun i => (p.getD i 0).val) (fun i => (p.getD i 0).isLt) (k + 1)
    have hsucc := sum_be_succ (fun i => (p.getD i 0).val) k
    have hT := pow_le_bits T (k + 1) hk
    have h8 : 2 ^ (8 * (k + 1)) = 256 * 2 ^ (8 * k) := by
      rw [Nat.mul_add, pow_add]
      norm_num [Nat.mul_comm]
    have hterm : (∑ i in Finset.range k, (p.getD i 0).val * 2 ^ (8 * (k - 1 - i))) * 2 ^ 8
        < 2 ^ bits T := by
      simp only at hs
      omega
    have hc := castT_byte T (p.getD k 0)
    simp only [Option.bind_eq_bind, Option.some_bind, List.foldlM_cons, List.foldlM_nil,
      load_be_step, readByte_of_lt p k (by omega), hc, shl_of_lt T _ _ hterm]
    rw [or_eq_add_of_dvd _ _ 8 (Dvd.intro_left _ rfl) hb]
    simp only at hsucc hs'
    rw [← hsucc, castT_of_lt T _ (lt_of_lt_of_le hs' hT)]
    rfl

theorem castU8_val (x : Nat) : (castU8 x).val = x % 256 := rfl

theorem castU8_byteAt_val (v k : Nat) : (castU8 (byteAt v k)).val = v / 2 ^ (8 * k) % 256 := by
  rw [castU8_val, Nat.mod_eq_of_lt (byteAt_lt v k), byteAt_eq]

/-- The buffer after `store_le`: the `sizeof T` low bytes of the value, least
significant first, followed by the untouched rest of the buffer. -/
theorem store_le_eq (T : UIntType) (p : List Byte) (v : Nat) (hp : sizeof T ≤ p.length) :
    store_le T p v
      = some ((List.range (sizeof T)).map (fun i => castU8 (byteAt v i))
          ++ p.drop (sizeof T)) :=
  foldlM_writeByte (fun i => castU8 (byteAt v i)) (sizeof T) p hp

/-- The buffer after `store_be`: the `sizeof T` low bytes of the value, most
significant first, followed by the untouched rest of the buffer. -/
theorem store_be_eq (T : UIntType) (p : List Byte) (v : Nat) (hp : sizeof T ≤ p.length) :
    store_be T p v
      = some ((List.range (sizeof T)).map (fun i => castU8 (byteAt v (sizeof T - 1 - i)))
          ++ p.drop (sizeof T)) :=
  foldlM_writeByte (fun i => castU8 (byteAt v (sizeof T - 1 - i))) (sizeof T) p hp

/-- Reading inside the freshly written prefix. -/
theorem getElem?_written (f : Nat → Byte) (n : Nat) (r : List Byte) (i : Nat) (hi : i < n) :
    ((List.range n).map f ++ r)[i]? = some (f i) := by
  rw [List.getElem?_append_left (by simpa using hi)]
  simp [List.getElem?_range hi]

theorem getD_written (f : Nat → Byte) (n : Nat) (r : List Byte) (i : Nat) (hi : i < n) :
    ((List.range n).map f ++ r).getD i 0 = f i := by
  rw [List.getD_eq_getElem?_getD, getElem?_written f n r i hi]
  rfl

/-- Reading behind the freshly written prefix. -/
theorem getElem?_behind (f : Nat → Byte) (n : Nat) (p : List Byte) (j : Nat) (hj : n ≤ j) :
    ((List.range n).map f ++ p.drop n)[j]? = p[j]? := by
  rw [List.getElem?_append_right (by simpa using hj)]
  simp only [List.length_map, List.length_range, List.getElem?_drop]
  congr 1
  omega

theorem length_written (f : Nat → Byte) (n : Nat) (p : List Byte) (h : n ≤ p.length) :
    ((List.range n).map f ++ p.drop n).length = p.length := by
  simp only [List.length_append, List.length_map, List.length_range, List.length_drop]
  omega

/-- Byte `i` of a little-endian sum of `n` bytes is the `i`-th summand's byte. -/
theorem byte_of_sum_le (g : Nat → Nat) (hg : ∀ i, g i < 256) (n i : Nat) (hi : i < n) :
    (∑ j in Finset.range n, g j * 2 ^ (8 * j)) / 2 ^ (8 * i) % 256 = g i := by
  induction n with
  | zero => omega
  | succ n ih =>
    rw [Finset.sum_range_succ]
    rcases Nat.lt_succ_iff_lt_or_eq.mp hi with h | h
    · have e : 2 ^ (8 * n) = 2 ^ (8 * i) * (256 * 2 ^ (8 * (n - i - 1))) := by
        rw [show (256 : Nat) = 2 ^ 8 by norm_num, ← pow_add, ← pow_add]
        congr 1
        omega
      rw [e, ← Nat.mul_assoc, Nat.mul_comm (g n), Nat.mul_assoc,
        Nat.add_mul_div_left _ _ (Nat.two_pow_pos _), Nat.mul_comm (g n), Nat.mul_assoc,
        Nat.add_mul_mod_self_left, ih h]
    · subst h
      have hs := sum_le_lt g hg i
      rw [Nat.add_mul_div_right _ _ (Nat.two_pow_pos _), Nat.div_eq_of_lt hs, Nat.zero_add,
        Nat.mod_eq_of_lt (hg i)]

/-- A big-endian sum is the little-endian sum of the reversed bytes. -/
theorem sum_be_eq_sum_le (g : Nat → Nat) (n : Nat) :
    ∑ i in Finset.range n, g i * 2 ^ (8 * (n - 1 - i))
      = ∑ j in Finset.range n, g (n - 1 - j) * 2 ^ (8 * j) := by
  rw [← Finset.sum_range_reflect]
  apply Finset.sum_congr rfl
  intro j hj
  have hj' : j < n := Finset.mem_range.mp hj
  have : n - 1 - (n - 1 - j) = j := by omega
  simp only [this]

/-- Byte `n - 1 - i` of a big-endian sum of `n` bytes is the `i`-th summand's byte. -/
theorem byte_of_sum_be (g : Nat → Nat) (hg : ∀ i, g i < 256) (n i : Nat) (hi : i < n) :
    (∑ j in Finset.range n, g j * 2 ^ (8 * (n - 1 - j))) / 2 ^ (8 * (n - 1 - i)) % 256
      = g i := by
  rw [sum_be_eq_sum_le, byte_of_sum_le (fun j => g (n - 1 - j)) (fun j => hg _) n (n - 1 - i)
    (by omega)]
  have : n - 1 - (n - 1 - i) = i := by omega
  simp only [this]

/-! ## Load and store -/

/-- C1. Round-trip LE: for every supported type `T`, every value `v` of that type and
every buffer `p` of at least `sizeof T` bytes, whatever it holds, `store_le` succeeds
and `load_le` on the buffer it leaves returns `v`. -/
theorem load_le_store_le (T : UIntType) (p : List Byte) (v : Nat) (hv : v < 2 ^ bits T)
    (hp : sizeof T ≤ p.length) :
    (store_le T p v).bind (load_le T) = some v := by
  rw [store_le_eq T p v hp, Option.some_bind, load_le,
    load_le_loop T _ (sizeof T) (Nat.le_refl _) (by rw [length_written _ _ _ hp]; exact hp)]
  congr 1
  have hsum := sum_bytes v (sizeof T)
  rw [show 8 * sizeof T = bits T from rfl, Nat.mod_eq_of_lt hv] at hsum
  refine (Finset.sum_congr rfl fun i hi => ?_).trans hsum
  rw [getD_written _ _ _ i (Finset.mem_range.mp hi), castU8_byteAt_val]

/-- Witness of C1: the test's 32-bit store into a zeroed 8-byte buffer. -/
theorem load_le_store_le_witness :
    (store_le .u32 [0, 0, 0, 0, 0, 0, 0, 0] 0x11223344).bind (load_le .u32)
      = some 0x11223344 :=
  load_le_store_le .u32 [0, 0, 0, 0, 0, 0, 0, 0] 0x11223344 (by decide) (by decide)

/-- C2. Round-trip BE: for every supported type `T`, every value `v` of that type and
every buffer `p` of at least `sizeof T` bytes, whatever it holds, `store_be` succeeds
and `load_be` on the buffer it leaves returns `v`. -/
theorem load_be_store_be (T : UIntType) (p : List Byte) (v : Nat) (hv : v < 2 ^ bits T)
    (hp : sizeof T ≤ p.length) :
    (store_be T p v).bind (load_be T) = some v := by
  rw [store_be_eq T p v hp, Option.some_bind, load_be,
    load_be_loop T _ (sizeof T) (Nat.le_refl _) (by rw [length_written _ _ _ hp]; exact hp)]
  congr 1
  have hsum := sum_bytes v (sizeof T)
  rw [show 8 * sizeof T = bits T from rfl, Nat.mod_eq_of_lt hv] at hsum
  rw [sum_be_eq_sum_le]
  refine (Finset.sum_congr rfl fun i hi => ?_).trans hsum
  have hi' : i < sizeof T := Finset.mem_range.mp hi
  have e : sizeof T - 1 - (sizeof T - 1 - i) = i := by omega
  rw [getD_written _ _ _ (sizeof T - 1 - i) (by omega), castU8_byteAt_val, e]

/-- Witness of C2: the test's 32-bit store into a zeroed 8-byte buffer. -/
theorem load_be_store_be_witness :
    (store_be .u32 [0, 0, 0, 0, 0, 0, 0, 0] 0x11223344).bind (load_be .u32)
      = some 0x11223344 :=
  load_be_store_be .u32 [0, 0, 0, 0, 0, 0, 0, 0] 0x11223344 (by decide) (by decide)

/-- C5. Layout of `store_le`: on a buffer of at least `sizeof T` bytes the store
succeeds and the byte it leaves at every offset `i < sizeof T` is
`(v >> 8i) & 0xFF`; the 32-bit value `0xA1B2C3D4` gives `[0xD4, 0xC3, 0xB2, 0xA1]`. -/
theorem store_le_layout (T : UIntType) (p : List Byte) (v : Nat) (hp : sizeof T ≤ p.length) :
    (∃ q, store_le T p v = some q ∧
      ∀ i, i < sizeof T → (q[i]?).map Fin.val = some (byteAt v i)) ∧
    store_le .u32 [0, 0, 0, 0] 0xA1B2C3D4 = some [0xD4, 0xC3, 0xB2, 0xA1] := by
  refine ⟨⟨_, store_le_eq T p v hp, fun i hi => ?_⟩, by decide⟩
  rw [getElem?_written _ _ _ i hi, Option.map_some', castU8_byteAt_val, byteAt_eq]

/-- Witness of C5: a 16-bit store into a 3-byte buffer. -/
theorem store_le_layout_witness :
    (∃ q, store_le .u16 [7, 8, 9] 0x1122 = some q ∧
      ∀ i, i < sizeof .u16 → (q[i]?).map Fin.val = some (byteAt 0x1122 i)) ∧
    store_le .u32 [0, 0, 0, 0] 0xA1B2C3D4 = some [0xD4, 0xC3, 0xB2, 0xA1] :=
  store_le_layout .u16 [7, 8, 9] 0x1122 (by decide)

/-- C6. Layout of `store_be`: on a buffer of at least `n = sizeof T` bytes the store
succeeds and the byte it leaves at every offset `i < n` is `(v >> 8(n-1-i)) & 0xFF`;
the 32-bit value `0xA1B2C3D4` gives `[0xA1, 0xB2, 0xC3, 0xD4]`. -/
theorem store_be_layout (T : UIntType) (p : List Byte) (v : Nat) (hp : sizeof T ≤ p.length) :
    (∃ q, store_be T p v = some q ∧
      ∀ i, i < sizeof T → (q[i]?).map Fin.val = some (byteAt v (sizeof T - 1 - i))) ∧
    store_be .u32 [0, 0, 0, 0] 0xA1B2C3D4 = some [0xA1, 0xB2, 0xC3, 0xD4] := by
  refine ⟨⟨_, store_be_eq T p v hp, fun i hi => ?_⟩, by decide⟩
  rw [getElem?_written _ _ _ i hi, Option.map_some', castU8_byteAt_val, byteAt_eq]

/-- Witness of C6: a 16-bit store into a 3-byte buffer. -/
theorem store_be_layout_witness :
    (∃ q, store_be .u16 [7, 8, 9] 0x1122 = some q ∧
      ∀ i, i < sizeof .u16 →
        (q[i]?).map Fin.val = some (byteAt 0x1122 (sizeof .u16 - 1 - i))) ∧
    store_be .u32 [0, 0, 0, 0] 0xA1B2C3D4 = some [0xA1, 0xB2, 0xC3, 0xD4] :=
  store_be_layout .u16 [7, 8, 9] 0x1122 (by decide)

/-- C7. Decoding of `load_le`: on a buffer `p` of at least `n = sizeof T` bytes the
load succeeds with the sum over `i < n` of `p[i] * 2 ^ (8 * i)`, byte `i` of that
result is `p[i]`, and `[0xD4, 0xC3, 0xB2, 0xA1]` decodes to `0xA1B2C3D4`.
(`p.getD i 0` is `p[i]` for `i < n`.) -/
theorem load_le_decodes (T : UIntType) (p : List Byte) (hp : sizeof T ≤ p.length) :
    load_le T p = some (∑ i in Finset.range (sizeof T), (p.getD i 0).val * 2 ^ (8 * i)) ∧
    (∀ i, i < sizeof T →
      byteAt (∑ j in Finset.range (sizeof T), (p.getD j 0).val * 2 ^ (8 * j)) i
        = (p.getD i 0).val) ∧
    load_le .u32 [0xD4, 0xC3, 0xB2, 0xA1] = some 0xA1B2C3D4 := by
  refine ⟨load_le_loop T p (sizeof T) (Nat.le_refl _) hp, fun i hi => ?_, by decide⟩
  rw [byteAt_eq]
  exact byte_of_sum_le (fun j => (p.getD j 0).val) (fun j => (p.getD j 0).isLt) _ i hi

/-- Witness of C7: a 64-bit load from a 9-byte buffer. -/
theorem load_le_decodes_witness :
    load_le .u64 [1, 2, 3, 4, 5, 6, 7, 8, 9] = some 0x0807060504030201 :=
  (load_le_decodes .u64 [1, 2, 3, 4, 5, 6, 7, 8, 9] (by decide)).1.trans (by decide)

/-- C8. Decoding of `load_be`: on a buffer `p` of at least `n = sizeof T` bytes the
load succeeds with the sum over `i < n` of `p[i] * 2 ^ (8 * (n - 1 - i))`, byte
`n - 1 - i` of that result is `p[i]`, and `[0xA1, 0xB2, 0xC3, 0xD4]` decodes to
`0xA1B2C3D4`. (`p.getD i 0` is `p[i]` for `i < n`.) -/
theorem load_be_decodes (T : UIntType) (p : List Byte) (hp : sizeof T ≤ p.length) :
    load_be T p
      = some (∑ i in Finset.range (sizeof T),
          (p.getD i 0).val * 2 ^ (8 * (sizeof T - 1 - i))) ∧
    (∀ i, i < sizeof T →
      byteAt (∑ j in Finset.range (sizeof T),
          (p.getD j 0).val * 2 ^ (8 * (sizeof T - 1 - j))) (sizeof T - 1 - i)
        = (p.getD i 0).val) ∧
    load_be .u32 [0xA1, 0xB2, 0xC3, 0xD4] = some 0xA1B2C3D4 := by
  refine ⟨load_be_loop T p (sizeof T) (Nat.le_refl _) hp, fun i hi => ?_, by decide⟩
  rw [byteAt_eq]
  exact byte_of_sum_be (fun j => (p.getD j 0).val) (fun j => (p.getD j 0).isLt) _ i hi

/-- Witness of C8: a 64-bit load from a 9-byte buffer. -/
theorem load_be_decodes_witness :
    load_be .u64 [1, 2, 3, 4, 5, 6, 7, 8, 9] = some 0x0102030405060708 :=
  (load_be_decodes .u64 [1, 2, 3, 4, 5, 6, 7, 8, 9] (by decide)).1.trans (by decide)

/-- C9, as stated, fails: the 32-bit value `0x12212112` has the bytes `0x12` and
`0x21`, distinct and non-zero, and `store_le` and `store_be` write the same four
bytes for it. -/
theorem cross_order_counterexample :
    (0x12212112 : Nat) < 2 ^ bits .u32 ∧
    byteAt 0x12212112 0 = 0x12 ∧ byteAt 0x12212112 1 = 0x21 ∧
    byteAt 0x12212112 2 = 0x21 ∧ byteAt 0x12212112 3 = 0x12 ∧
    store_le .u32 [0, 0, 0, 0] 0x12212112 = some [0x12, 0x21, 0x21, 0x12] ∧
    store_be .u32 [0, 0, 0, 0] 0x12212112 = some [0x12, 0x21, 0x21, 0x12] := by
  decide

/-- C9, amended. Cross-order distinction: for every supported type `T`
(`n = sizeof T`) and every value `v` that has a byte position `i < n` whose byte
differs from the byte at the mirrored position `n - 1 - i`, the `n` bytes written by
`store_le` differ from the `n` bytes written by `store_be`. -/
theorem store_le_ne_store_be (T : UIntType) (v : Nat) (p q : List Byte)
    (hp : sizeof T ≤ p.length) (hq : sizeof T ≤ q.length)
    (h : ∃ i, i < sizeof T ∧ byteAt v i ≠ byteAt v (sizeof T - 1 - i)) :
    ∃ a b, store_le T p v = some a ∧ store_be T q v = some b ∧
      a.take (sizeof T) ≠ b.take (sizeof T) := by
  obtain ⟨i, hi, hne⟩ := h
  refine ⟨_, _, store_le_eq T p v hp, store_be_eq T q v hq, fun heq => hne ?_⟩
  have h1 := congrArg (fun l : List Byte => (l[i]?).map Fin.val) heq
  simp only [List.getElem?_take, if_pos hi, getElem?_written _ _ _ i hi, Option.map_some',
    castU8_byteAt_val, Option.some.injEq] at h1
  rw [byteAt_eq, byteAt_eq]
  exact h1

/-- Witness of the amended C9 at the test's value `0xA1B2C3D4`. -/
theorem store_le_ne_store_be_witness :
    ∃ a b, store_le .u32 [0, 0, 0, 0] 0xA1B2C3D4 = some a ∧
      store_be .u32 [0, 0, 0, 0] 0xA1B2C3D4 = some b ∧
      a.take (sizeof .u32) ≠ b.take (sizeof .u32) :=
  store_le_ne_store_be .u32 0xA1B2C3D4 [0, 0, 0, 0] [0, 0, 0, 0] (by decide) (by decide)
    ⟨0, by decide, by decide⟩

/-- C10. Store frame: on a buffer of length `L ≥ n = sizeof T`, `store_le` and
`store_be` each succeed, leave the length `L` unchanged and leave every byte at an
offset `j` with `n ≤ j < L` as it was. -/
theorem store_frame (T : UIntType) (p : List Byte) (v : Nat) (hp : sizeof T ≤ p.length) :
    (∃ q, store_le T p v = some q ∧ q.length = p.length ∧
      ∀ j, sizeof T ≤ j → j < p.length → q[j]? = p[j]?) ∧
    (∃ q, store_be T p v = some q ∧ q.length = p.length ∧
      ∀ j, sizeof T ≤ j → j < p.length → q[j]? = p[j]?) :=
  ⟨⟨_, store_le_eq T p v hp, length_written _ _ _ hp,
      fun j hj _ => getElem?_behind _ _ _ j hj⟩,
   ⟨_, store_be_eq T p v hp, length_written _ _ _ hp,
      fun j hj _ => getElem?_behind _ _ _ j hj⟩⟩

/-- Witness of C10: a 32-bit store into an 8-byte buffer, as in the test. -/
theorem store_frame_witness :
    (∃ q, store_le .u32 [1, 2, 3, 4, 5, 6, 7, 8] 0x11223344 = some q ∧
      q.length = [1, 2, 3, 4, 5, 6, 7, (8 : Byte)].length ∧
      ∀ j, sizeof .u32 ≤ j → j < [1, 2, 3, 4, 5, 6, 7, (8 : Byte)].length →
        q[j]? = [1, 2, 3, 4, 5, 6, 7, (8 : Byte)][j]?) ∧
    (∃ q, store_be .u32 [1, 2, 3, 4, 5, 6, 7, 8] 0x11223344 = some q ∧
      q.length = [1, 2, 3, 4, 5, 6, 7, (8 : Byte)].length ∧
      ∀ j, sizeof .u32 ≤ j → j < [1, 2, 3, 4, 5, 6, 7, (8 : Byte)].length →
        q[j]? = [1, 2, 3, 4, 5, 6, 7, (8 : Byte)][j]?) :=
  store_frame .u32 [1, 2, 3, 4, 5, 6, 7, 8] 0x11223344 (by decide)

/-! ## Reads, bounds and the host -/

theorem getD_eq_of_getElem?_eq (p q : List Byte) (i : Nat) (h : p[i]? = q[i]?) :
    p.getD i 0 = q.getD i 0 := by
  rw [List.getD_eq_getElem?_getD, List.getD_eq_getElem?_getD, h]

/-- C11. Load reads only the first `sizeof T` bytes: two buffers of at least
`n = sizeof T` bytes that agree on the offsets `0 .. n-1` give the same `load_le`
and the same `load_be`, whatever they hold at the offsets from `n` on. -/
theorem load_reads_prefix (T : UIntType) (p q : List Byte) (hp : sizeof T ≤ p.length)
    (hq : sizeof T ≤ q.length) (h : ∀ i, i < sizeof T → p[i]? = q[i]?) :
    load_le T p = load_le T q ∧ load_be T p = load_be T q := by
  constructor
  · rw [load_le, load_le, load_le_loop T p _ (Nat.le_refl _) hp,
      load_le_loop T q _ (Nat.le_refl _) hq]
    congr 1
    refine Finset.sum_congr rfl fun i hi => ?_
    rw [getD_eq_of_getElem?_eq p q i (h i (Finset.mem_range.mp hi))]
  · rw [load_be, load_be, load_be_loop T p _ (Nat.le_refl _) hp,
      load_be_loop T q _ (Nat.le_refl _) hq]
    congr 1
    refine Finset.sum_congr rfl fun i hi => ?_
    rw [getD_eq_of_getElem?_eq p q i (h i (Finset.mem_range.mp hi))]

/-- Witness of C11: two buffers with the same first two bytes. -/
theorem load_reads_prefix_witness :
    load_le .u16 [0x22, 0x11, 0xAA] = load_le .u16 [0x22, 0x11, 0xBB, 0xCC] ∧
    load_be .u16 [0x22, 0x11, 0xAA] = load_be .u16 [0x22, 0x11, 0xBB, 0xCC] :=
  load_reads_prefix .u16 [0x22, 0x11, 0xAA] [0x22, 0x11, 0xBB, 0xCC] (by decide) (by decide)
    (fun i hi => by
      have : i = 0 ∨ i = 1 := by simp only [sizeof] at hi; omega
      rcases this with rfl | rfl <;> rfl)

theorem writeByte_isSome (q : List Byte) (i : Nat) (b : Byte) (h : i < q.length) :
    (writeByte q i b).isSome = true := by
  simp [writeByte, h]

/-- C12. Bounds safety: on a buffer of at least `n = sizeof T` bytes every index
the four loops visit is below `n` (and so inside the buffer), every single read of
`load_le` / `load_be` and every single write of `store_le` / `store_be` at such an
index succeeds, and the four operations return a result: the out-of-range branch
is never reached. -/
theorem bounds_safe (T : UIntType) (p : List Byte) (v : Nat) (hp : sizeof T ≤ p.length) :
    (∀ i, i ∈ List.range (sizeof T) → i < sizeof T ∧ i < p.length) ∧
    (∀ i acc, i < sizeof T →
      (load_le_step T p acc i).isSome = true ∧ (load_be_step T p acc i).isSome = true) ∧
    (∀ i (q : List Byte), i < sizeof T → q.length = p.length →
      (store_le_step v q i).isSome = true ∧ (store_be_step T v q i).isSome = true) ∧
    (load_le T p).isSome = true ∧ (load_be T p).isSome = true ∧
    (store_le T p v).isSome = true ∧ (store_be T p v).isSome = true := by
  refine ⟨fun i hi => ?_, fun i acc hi => ?_, fun i q hi hq => ?_, ?_, ?_, ?_, ?_⟩
  · have := List.mem_range.mp hi
    omega
  · simp [load_le_step, load_be_step, readByte_of_lt p i (by omega)]
  · exact ⟨writeByte_isSome _ _ _ (by omega), writeByte_isSome _ _ _ (by omega)⟩
  · rw [load_le, load_le_loop T p _ (Nat.le_refl _) hp]; rfl
  · rw [load_be, load_be_loop T p _ (Nat.le_refl _) hp]; rfl
  · rw [store_le_eq T p v hp]; rfl
  · rw [store_be_eq T p v hp]; rfl

/-- Witness of C12: the four operations on the test's 8-byte buffer, at 32 bits. -/
theorem bounds_safe_witness :
    (load_le .u32 [0, 0, 0, 0, 0, 0, 0, 0]).isSome = true ∧
    (load_be .u32 [0, 0, 0, 0, 0, 0, 0, 0]).isSome = true ∧
    (store_le .u32 [0, 0, 0, 0, 0, 0, 0, 0] 0x11223344).isSome = true ∧
    (store_be .u32 [0, 0, 0, 0, 0, 0, 0, 0] 0x11223344).isSome = true :=
  (bounds_safe .u32 [0, 0, 0, 0, 0, 0, 0, 0] 0x11223344 (by decide)).2.2.2

/-- C13. Complementarity: on every host `is_big_endian` is the negation of
`is_little_endian`, one of the two is true, and they are never equal. -/
theorem endian_complementary (h : Host) :
    is_big_endian h = !is_little_endian h ∧
    (is_little_endian h || is_big_endian h) = true ∧
    is_little_endian h ≠ is_big_endian h := by
  cases h <;> decide

/-- Truncating to a byte after masking with `0xFF` is truncating to a byte. -/
theorem castU8_byteAt (x k : Nat) : castU8 (byteAt x k) = castU8 (x >>> (8 * k)) := by
  apply Fin.ext
  rw [castU8_val, castU8_val, byteAt_eq, Nat.shiftRight_eq_div_pow, Nat.mod_mod]

/-- C14. Host probe: `is_little_endian` is true exactly when the first byte of the
stored 16-bit value `0x0102` is `0x02`, exactly when the host is the little-endian
one, and exactly when the host puts the least significant byte of every 16-bit
value at the lowest address. -/
theorem is_little_endian_correct (h : Host) :
    (is_little_endian h = true ↔ readByte (h.objectBytes 2 0x0102) 0 = some 0x02) ∧
    (is_little_endian h = true ↔ h = Host.little) ∧
    (is_little_endian h = true ↔
      ∀ x, x < 2 ^ 16 → readByte (h.objectBytes 2 x) 0 = some (castU8 (byteAt x 0))) := by
  refine ⟨by cases h <;> decide, by cases h <;> decide, ?_⟩
  cases h
  · refine ⟨fun _ x _ => ?_, fun _ => by decide⟩
    have e : readByte (Host.little.objectBytes 2 x) 0 = some (castU8 (x >>> (8 * 0))) := rfl
    rw [e, castU8_byteAt]
  · refine ⟨fun hh => absurd hh (by decide), fun hh => ?_⟩
    exact absurd (hh 0x0102 (by decide)) (by decide)

theorem getD_map_range (f : Nat → Byte) (n i : Nat) (hi : i < n) :
    ((List.range n).map f).getD i 0 = f i := by
  have h := getD_written f n [] i hi
  rwa [List.append_nil] at h

theorem castU8_shiftRight_val (x k : Nat) : (castU8 (x >>> k)).val = x / 2 ^ k % 256 := by
  rw [castU8_val, Nat.shiftRight_eq_div_pow]

/-! ## Load, store and byte swap together -/

/-- Mapping the entries of a buffer over its first `n` indices gives its first `n` bytes. -/
theorem map_range_getD (p : List Byte) (n : Nat) (h : n ≤ p.length) :
    (List.range n).map (fun i => p.getD i 0) = p.take n := by
  apply List.ext_getElem?
  intro i
  by_cases hi : i < n
  · have hw := getElem?_written (fun i => p.getD i 0) n [] i hi
    rw [List.append_nil] at hw
    rw [hw, List.getElem?_take, if_pos hi]
    show some (p.getD i 0) = p[i]?
    rw [List.getD_eq_getElem?_getD, List.getElem?_eq_getElem (by omega)]
    rfl
  · rw [List.getElem?_eq_none (by simpa using Nat.le_of_not_lt hi),
      List.getElem?_eq_none (by simp; omega)]

theorem map_range_congr (f g : Nat → Byte) (n : Nat) (h : ∀ i, i < n → f i = g i) :
    (List.range n).map f = (List.range n).map g :=
  List.map_congr_left fun i hi => h i (List.mem_range.mp hi)

/-- C16. Store is the inverse of load: on a buffer `b` of at least `sizeof T` bytes,
storing with `store_le` the value `load_le` reads from `b` leaves `b` as it is, and
likewise for `store_be` and `load_be`. -/
theorem store_load_id (T : UIntType) (b : List Byte) (hb : sizeof T ≤ b.length) :
    (load_le T b).bind (store_le T b) = some b ∧
    (load_be T b).bind (store_be T b) = some b := by
  constructor
  · rw [load_le, load_le_loop T b _ (Nat.le_refl _) hb, Option.some_bind,
      store_le_eq T b _ hb]
    congr 1
    rw [map_range_congr _ (fun i => b.getD i 0) _ fun i hi => ?_, map_range_getD b _ hb,
      List.take_append_drop]
    apply Fin.ext
    rw [castU8_byteAt_val]
    exact byte_of_sum_le (fun j => (b.getD j 0).val) (fun j => (b.getD j 0).isLt) _ i hi
  · rw [load_be, load_be_loop T b _ (Nat.le_refl _) hb, Option.some_bind,
      store_be_eq T b _ hb]
    congr 1
    rw [map_range_congr _ (fun i => b.getD i 0) _ fun i hi => ?_, map_range_getD b _ hb,
      List.take_append_drop]
    apply Fin.ext
    rw [castU8_byteAt_val]
    exact byte_of_sum_be (fun j => (b.getD j 0).val) (fun j => (b.getD j 0).isLt) _ i hi

/-- Witness of C16: a 32-bit load and store on a 5-byte buffer. -/
theorem store_load_id_witness :
    (load_le .u32 [0xD4, 0xC3, 0xB2, 0xA1, 0x55]).bind
        (store_le .u32 [0xD4, 0xC3, 0xB2, 0xA1, 0x55])
      = some [0xD4, 0xC3, 0xB2, 0xA1, 0x55] ∧
    (load_be .u32 [0xD4, 0xC3, 0xB2, 0xA1, 0x55]).bind
        (store_be .u32 [0xD4, 0xC3, 0xB2, 0xA1, 0x55])
      = some [0xD4, 0xC3, 0xB2, 0xA1, 0x55] :=
  store_load_id .u32 [0xD4, 0xC3, 0xB2, 0xA1, 0x55] (by decide)

/-- The byte swap of a value of type `T` is the big-endian sum of its bytes taken
least significant first. -/
theorem bswap_eq_sum (T : UIntType) (v : Nat) (hv : v < 2 ^ bits T) :
    bswap T v
      = ∑ i in Finset.range (sizeof T), v / 2 ^ (8 * i) % 256 * 2 ^ (8 * (sizeof T - 1 - i)) := by
  have hlt := sum_be_lt (fun i => v / 2 ^ (8 * i) % 256)
    (fun i => Nat.mod_lt _ (by norm_num)) (sizeof T)
  have hc := castT_of_lt T _ (lt_of_lt_of_le hlt (pow_le_bits T _ (Nat.le_refl _)))
  rw [← hc]
  cases T
  · simp only [bswap, sizeof, bswap16_eq v hv, Finset.sum_range_succ, Finset.sum_range_zero]
    norm_num
  · simp only [bswap, sizeof, bswap32_eq v, Finset.sum_range_succ, Finset.sum_range_zero]
    norm_num
  · simp only [bswap, sizeof, bswap64_eq v, Finset.sum_range_succ, Finset.sum_range_zero]
    norm_num

/-- Byte `n - 1 - i` of the byte swap is byte `i` of the value. -/
theorem byteAt_bswap (T : UIntType) (v i : Nat) (hv : v < 2 ^ bits T) (hi : i < sizeof T) :
    byteAt (bswap T v) (sizeof T - 1 - i) = byteAt v i := by
  rw [bswap_eq_sum T v hv, byteAt_eq, byteAt_eq]
  exact byte_of_sum_be (fun j => v / 2 ^ (8 * j) % 256) (fun j => Nat.mod_lt _ (by norm_num))
    _ i hi

theorem bswap_lt (T : UIntType) (v : Nat) : bswap T v < 2 ^ bits T := by
  cases T <;> exact Nat.mod_lt _ (Nat.two_pow_pos _)

/-- C17. Byte swap converts between the two stored representations: for a value
`v` of type `T` and a buffer of at least `sizeof T` bytes, `store_be` of `v` leaves
the same buffer as `store_le` of `bswap T v`, and `store_le` of `v` the same buffer
as `store_be` of `bswap T v`. -/
theorem store_bswap (T : UIntType) (p : List Byte) (v : Nat) (hv : v < 2 ^ bits T)
    (hp : sizeof T ≤ p.length) :
    (∃ q, store_be T p v = some q ∧ store_le T p (bswap T v) = some q) ∧
    (∃ q, store_le T p v = some q ∧ store_be T p (bswap T v) = some q) := by
  refine ⟨⟨_, store_be_eq T p v hp, ?_⟩, ⟨_, store_le_eq T p v hp, ?_⟩⟩
  · rw [store_le_eq T p _ hp]
    congr 2
    refine map_range_congr _ _ _ fun i hi => ?_
    have e : sizeof T - 1 - (sizeof T - 1 - i) = i := by omega
    have h := byteAt_bswap T v (sizeof T - 1 - i) hv (by omega)
    rw [e] at h
    show castU8 (byteAt (bswap T v) i) = castU8 (byteAt v (sizeof T - 1 - i))
    rw [h]
  · rw [store_be_eq T p _ hp]
    congr 2
    refine map_range_congr _ _ _ fun i hi => ?_
    show castU8 (byteAt (bswap T v) (sizeof T - 1 - i)) = castU8 (byteAt v i)
    rw [byteAt_bswap T v i hv hi]

/-- Witness of C17 at the test's value `0xA1B2C3D4`. -/
theorem store_bswap_witness :
    (∃ q, store_be .u32 [0, 0, 0, 0] 0xA1B2C3D4 = some q ∧
      store_le .u32 [0, 0, 0, 0] (bswap .u32 0xA1B2C3D4) = some q) ∧
    (∃ q, store_le .u32 [0, 0, 0, 0] 0xA1B2C3D4 = some q ∧
      store_be .u32 [0, 0, 0, 0] (bswap .u32 0xA1B2C3D4) = some q) :=
  store_bswap .u32 [0, 0, 0, 0] 0xA1B2C3D4 (by decide) (by decide)

/-- C18. Byte swap converts between the two decodings: on a buffer of at least
`sizeof T` bytes, `load_be` is `bswap T` of `load_le` and `load_le` is `bswap T` of
`load_be`. -/
theorem load_bswap (T : UIntType) (p : List Byte) (hp : sizeof T ≤ p.length) :
    (∃ r, load_le T p = some r ∧ load_be T p = some (bswap T r)) ∧
    (∃ r, load_be T p = some r ∧ load_le T p = some (bswap T r)) := by
  have hle := load_le_loop T p _ (Nat.le_refl _) hp
  have hbe := load_be_loop T p _ (Nat.le_refl _) hp
  have hT := pow_le_bits T _ (Nat.le_refl (sizeof T))
  have hl := sum_le_lt (fun i => (p.getD i 0).val) (fun i => (p.getD i 0).isLt) (sizeof T)
  have hb := sum_be_lt (fun i => (p.getD i 0).val) (fun i => (p.getD i 0).isLt) (sizeof T)
  refine ⟨⟨_, hle, ?_⟩, ⟨_, hbe, ?_⟩⟩
  · rw [load_be, hbe, bswap_eq_sum T _ (lt_of_lt_of_le hl hT)]
    congr 1
    refine Finset.sum_congr rfl fun i hi => ?_
    rw [byte_of_sum_le (fun j => (p.getD j 0).val) (fun j => (p.getD j 0).isLt) _ i
      (Finset.mem_range.mp hi)]
  · rw [load_le, hle, bswap_eq_sum T _ (lt_of_lt_of_le hb hT), sum_be_eq_sum_le]
    congr 1
    refine Finset.sum_congr rfl fun i hi => ?_
    have hi' : i < sizeof T := Finset.mem_range.mp hi
    have h := byte_of_sum_be (fun j => (p.getD j 0).val) (fun j => (p.getD j 0).isLt) _
      i hi'
    simp only at h
    rw [h]

/-- Witness of C18 on the bytes `[0xD4, 0xC3, 0xB2, 0xA1]`. -/
theorem load_bswap_witness :
    (∃ r, load_le .u32 [0xD4, 0xC3, 0xB2, 0xA1] = some r ∧
      load_be .u32 [0xD4, 0xC3, 0xB2, 0xA1] = some (bswap .u32 r)) ∧
    (∃ r, load_be .u32 [0xD4, 0xC3, 0xB2, 0xA1] = some r ∧
      load_le .u32 [0xD4, 0xC3, 0xB2, 0xA1] = some (bswap .u32 r)) :=
  load_bswap .u32 [0xD4, 0xC3, 0xB2, 0xA1] (by decide)

/-- The bytes taken in mirrored order are the reversed bytes. -/
theorem map_range_mirror (f : Nat → Byte) (n : Nat) :
    (List.range n).map (fun i => f (n - 1 - i)) = ((List.range n).map f).reverse := by
  apply List.ext_getElem?
  intro i
  have hlen : ((List.range n).map f).length = n := by simp
  by_cases hi : i < n
  · have h1 := getElem?_written (fun i => f (n - 1 - i)) n [] i hi
    have h2 := getElem?_written f n [] (n - 1 - i) (by omega)
    rw [List.append_nil] at h1 h2
    rw [h1, List.getElem?_reverse (by rw [hlen]; exact hi), hlen, h2]
  · rw [List.getElem?_eq_none (by simpa using Nat.le_of_not_lt hi),
      List.getElem?_eq_none (by simpa using Nat.le_of_not_lt hi)]

theorem take_written (f : Nat → Byte) (n : Nat) (r : List Byte) :
    ((List.range n).map f ++ r).take n = (List.range n).map f :=
  List.take_left' (by simp)

/-- C20. The two stored orders are mirror images: the byte `store_be` leaves at
offset `i < n` is the byte `store_le` leaves at offset `n - 1 - i`; the `n` bytes of
`store_be` are the reversed `n` bytes of `store_le`, so the two sequences are equal
exactly when the sequence of `store_le` is a palindrome. -/
theorem store_mirror (T : UIntType) (v : Nat) (p q : List Byte) (hp : sizeof T ≤ p.length)
    (hq : sizeof T ≤ q.length) :
    ∃ a b, store_le T p v = some a ∧ store_be T q v = some b ∧
      (∀ i, i < sizeof T → b[i]? = a[sizeof T - 1 - i]?) ∧
      b.take (sizeof T) = (a.take (sizeof T)).reverse ∧
      (b.take (sizeof T) = a.take (sizeof T) ↔
        (a.take (sizeof T)).reverse = a.take (sizeof T)) := by
  refine ⟨_, _, store_le_eq T p v hp, store_be_eq T q v hq, fun i hi => ?_, ?_, ?_⟩
  · rw [getElem?_written _ _ _ i hi, getElem?_written _ _ _ (sizeof T - 1 - i) (by omega)]
  · rw [take_written, take_written]
    exact map_range_mirror (fun i => castU8 (byteAt v i)) (sizeof T)
  · rw [take_written, take_written,
      map_range_mirror (fun i => castU8 (byteAt v i)) (sizeof T)]

/-- Witness of C20 at the test's value `0xA1B2C3D4`. -/
theorem store_mirror_witness :
    ∃ a b, store_le .u32 [0, 0, 0, 0] 0xA1B2C3D4 = some a ∧
      store_be .u32 [0, 0, 0, 0, 0] 0xA1B2C3D4 = some b ∧
      (∀ i, i < sizeof .u32 → b[i]? = a[sizeof .u32 - 1 - i]?) ∧
      b.take (sizeof .u32) = (a.take (sizeof .u32)).reverse ∧
      (b.take (sizeof .u32) = a.take (sizeof .u32) ↔
        (a.take (sizeof .u32)).reverse = a.take (sizeof .u32)) :=
  store_mirror .u32 0xA1B2C3D4 [0, 0, 0, 0] [0, 0, 0, 0, 0] (by decide) (by decide)

/-! ## Checked arithmetic -/

theorem castT_checked_of_lt (T : UIntType) (x : Nat) (h : x < 2 ^ bits T) :
    castT_checked T x = some x := by
  rw [castT_checked, if_pos h, castT_of_lt T x h]

theorem shl_checked_of_lt (T : UIntType) (x k : Nat) (hk : k < bits T)
    (h : x * 2 ^ k < 2 ^ bits T) : shl_checked T x k = some (x * 2 ^ k) := by
  have hp : x * 2 ^ k < 2 ^ promotedBits T :=
    lt_of_lt_of_le h (Nat.pow_le_pow_right (by norm_num) (bits_le_promotedBits T))
  rw [shl_checked, if_pos ⟨hk, hp⟩, shl_of_lt T x k h]

theorem shr_checked_of_lt (T : UIntType) (x k : Nat) (hk : k < bits T) :
    shr_checked T x k = some (x >>> k) := by
  rw [shr_checked, if_pos hk]

theorem sub_checked_of_le (a b : Nat) (h : b ≤ a) : sub_checked a b = some (a - b) := by
  rw [sub_checked, if_pos h]

theorem byte_lt_bits (T : UIntType) (b : Byte) : b.val < 2 ^ bits T := by
  have hb := b.isLt
  cases T <;> simp only [bits, sizeof] <;> omega

/-- A byte shifted to position `i < sizeof T` fits in `T`, and so does its sum with an
accumulator below `2 ^ (8 * i)`. -/
theorem contrib_lt (T : UIntType) (b : Byte) (acc i : Nat) (hi : i < sizeof T)
    (hacc : acc < 2 ^ (8 * i)) :
    b.val * 2 ^ (8 * i) < 2 ^ bits T ∧ acc + b.val * 2 ^ (8 * i) < 2 ^ bits T ∧
    acc * 2 ^ 8 < 2 ^ bits T ∧ acc * 2 ^ 8 + b.val < 2 ^ bits T := by
  have hT := pow_le_bits T (i + 1) hi
  have h8 : 2 ^ (8 * (i + 1)) = 256 * 2 ^ (8 * i) := by
    rw [Nat.mul_add, pow_add]
    norm_num [Nat.mul_comm]
  have hb := b.isLt
  have : b.val * 2 ^ (8 * i) ≤ 255 * 2 ^ (8 * i) := Nat.mul_le_mul_right _ (by omega)
  refine ⟨by omega, by omega, by omega, by omega⟩

/-- The iteration of `load_le` at index `i` on an accumulator below `2 ^ (8 * i)` adds
the byte `p[i]`, shifted to position `i`, exactly. -/
theorem load_le_step_exact (T : UIntType) (p : List Byte) (acc i : Nat) (hi : i < sizeof T)
    (hp : i < p.length) (hacc : acc < 2 ^ (8 * i)) :
    load_le_step T p acc i = some (acc + (p.getD i 0).val * 2 ^ (8 * i)) := by
  obtain ⟨h1, h2, -, -⟩ := contrib_lt T (p.getD i 0) acc i hi hacc
  have hor : acc ||| (p.getD i 0).val * 2 ^ (8 * i) = acc + (p.getD i 0).val * 2 ^ (8 * i) := by
    rw [Nat.lor_comm, or_eq_add_of_dvd _ _ (8 * i) (Dvd.intro_left _ rfl) hacc, Nat.add_comm]
  simp only [load_le_step, readByte_of_lt p i hp, Option.bind_eq_bind, Option.some_bind,
    castT_byte, shl_of_lt T _ _ h1, castT_of_lt T _ h1, hor, castT_of_lt T _ h2]
  rfl

theorem load_le_step_checked_exact (T : UIntType) (p : List Byte) (acc i : Nat)
    (hi : i < sizeof T) (hp : i < p.length) (hacc : acc < 2 ^ (8 * i)) :
    load_le_step_checked T p acc i = some (acc + (p.getD i 0).val * 2 ^ (8 * i)) := by
  obtain ⟨h1, h2, -, -⟩ := contrib_lt T (p.getD i 0) acc i hi hacc
  have hor : acc ||| (p.getD i 0).val * 2 ^ (8 * i) = acc + (p.getD i 0).val * 2 ^ (8 * i) := by
    rw [Nat.lor_comm, or_eq_add_of_dvd _ _ (8 * i) (Dvd.intro_left _ rfl) hacc, Nat.add_comm]
  have hk : 8 * i < bits T := by unfold bits; omega
  simp only [load_le_step_checked, readByte_of_lt p i hp, Option.bind_eq_bind,
    Option.some_bind, castT_checked_of_lt T _ (byte_lt_bits T _),
    shl_checked_of_lt T _ _ hk h1, castT_checked_of_lt T _ h1, hor,
    castT_checked_of_lt T _ h2]

theorem load_be_step_exact (T : UIntType) (p : List Byte) (acc i : Nat) (hi : i < sizeof T)
    (hp : i < p.length) (hacc : acc < 2 ^ (8 * i)) :
    load_be_step T p acc i = some (acc * 2 ^ 8 + (p.getD i 0).val) := by
  obtain ⟨-, -, h3, h4⟩ := contrib_lt T (p.getD i 0) acc i hi hacc
  have hor : acc * 2 ^ 8 ||| (p.getD i 0).val = acc * 2 ^ 8 + (p.getD i 0).val :=
    or_eq_add_of_dvd _ _ 8 (Dvd.intro_left _ rfl) (p.getD i 0).isLt
  simp only [load_be_step, readByte_of_lt p i hp, Option.bind_eq_bind, Option.some_bind,
    castT_byte, shl_of_lt T _ _ h3, hor, castT_of_lt T _ h4]
  rfl

theorem load_be_step_checked_exact (T : UIntType) (p : List Byte) (acc i : Nat)
    (hi : i < sizeof T) (hp : i < p.length) (hacc : acc < 2 ^ (8 * i)) :
    load_be_step_checked T p acc i = some (acc * 2 ^ 8 + (p.getD i 0).val) := by
  obtain ⟨-, -, h3, h4⟩ := contrib_lt T (p.getD i 0) acc i hi hacc
  have hor : acc * 2 ^ 8 ||| (p.getD i 0).val = acc * 2 ^ 8 + (p.getD i 0).val :=
    or_eq_add_of_dvd _ _ 8 (Dvd.intro_left _ rfl) (p.getD i 0).isLt
  have hk : 8 < bits T := by
    have : 2 ≤ sizeof T := by cases T <;> decide
    unfold bits; omega
  simp only [load_be_step_checked, readByte_of_lt p i hp, Option.bind_eq_bind,
    Option.some_bind, castT_checked_of_lt T _ (byte_lt_bits T _),
    shl_checked_of_lt T _ _ hk h3, hor, castT_checked_of_lt T _ h4]

theorem store_le_step_checked_eq (T : UIntType) (v : Nat) (q : List Byte) (i : Nat)
    (hi : i < sizeof T) : store_le_step_checked T v q i = store_le_step v q i := by
  have hk : 8 * i < bits T := by unfold bits; omega
  simp only [store_le_step_checked, store_le_step, shr_checked_of_lt T _ _ hk,
    Option.bind_eq_bind, Option.some_bind]

theorem store_be_step_checked_eq (T : UIntType) (v : Nat) (q : List Byte) (i : Nat)
    (hi : i < sizeof T) : store_be_step_checked T v q i = store_be_step T v q i := by
  have hk : 8 * (sizeof T - 1 - i) < bits T := by unfold bits; omega
  simp only [store_be_step_checked, store_be_step, sub_checked_of_le (sizeof T) 1 (by omega),
    sub_checked_of_le (sizeof T - 1) i (by omega), shr_checked_of_lt T _ _ hk,
    Option.bind_eq_bind, Option.some_bind]

/-- A loop over `0 .. n-1` whose iteration `i` takes the state `S i` to `S (i + 1)`
ends in `S n`. -/
theorem foldlM_range_closed {α : Type} (f : α → Nat → Option α) (S : Nat → α) (n : Nat)
    (h : ∀ i, i < n → f (S i) i = some (S (i + 1))) :
    (List.range n).foldlM f (S 0) = some (S n) := by
  induction n with
  | zero => rfl
  | succ n ih =>
    rw [List.range_succ, List.foldlM_append, ih fun i hi => h i (by omega)]
    simp only [Option.bind_eq_bind, Option.some_bind, List.foldlM_cons, List.foldlM_nil,
      h n (by omega)]
    rfl

/-- Two loops over the same indices whose iterations agree on those indices agree. -/
theorem foldlM_congr_mem {α : Type} (f g : α → Nat → Option α) (l : List Nat)
    (h : ∀ i, i ∈ l → ∀ a, f a i = g a i) (a : α) : l.foldlM f a = l.foldlM g a := by
  induction l generalizing a with
  | nil => rfl
  | cons x xs ih =>
    simp only [List.foldlM_cons, h x (List.mem_cons_self _ _)]
    cases g a x with
    | none => rfl
    | some b => exact ih (fun i hi => h i (List.mem_cons_of_mem _ hi)) b

theorem load_le_checked_eq (T : UIntType) (p : List Byte) (hp : sizeof T ≤ p.length) :
    load_le_checked T p = load_le T p := by
  rw [load_le, load_le_loop T p _ (Nat.le_refl _) hp]
  refine foldlM_range_closed (load_le_step_checked T p)
    (fun k => ∑ i in Finset.range k, (p.getD i 0).val * 2 ^ (8 * i)) (sizeof T) fun i hi => ?_
  simp only
  rw [load_le_step_checked_exact T p _ i hi (by omega)
    (sum_le_lt (fun i => (p.getD i 0).val) (fun i => (p.getD i 0).isLt) i),
    Finset.sum_range_succ]

theorem load_be_checked_eq (T : UIntType) (p : List Byte) (hp : sizeof T ≤ p.length) :
    load_be_checked T p = load_be T p := by
  rw [load_be, load_be_loop T p _ (Nat.le_refl _) hp]
  refine foldlM_range_closed (load_be_step_checked T p)
    (fun k => ∑ i in Finset.range k, (p.getD i 0).val * 2 ^ (8 * (k - 1 - i))) (sizeof T)
    fun i hi => ?_
  simp only
  rw [load_be_step_checked_exact T p _ i hi (by omega)
    (sum_be_lt (fun i => (p.getD i 0).val) (fun i => (p.getD i 0).isLt) i),
    sum_be_succ (fun i => (p.getD i 0).val) i]

theorem store_le_checked_eq (T : UIntType) (p : List Byte) (v : Nat) :
    store_le_checked T p v = store_le T p v :=
  foldlM_congr_mem _ _ _
    (fun i hi q => store_le_step_checked_eq T v q i (List.mem_range.mp hi)) p

theorem store_be_checked_eq (T : UIntType) (p : List Byte) (v : Nat) :
    store_be_checked T p v = store_be T p v :=
  foldlM_congr_mem _ _ _
    (fun i hi q => store_be_step_checked_eq T v q i (List.mem_range.mp hi)) p

/-- C19. All arithmetic in load and store is defined. On a buffer of at least
`n = sizeof T` bytes the four operations evaluated in checked arithmetic (a shift
amount below the bit width of `T`, no set bit dropped by a shift or by a conversion
to `T`, no wrap of the index subtraction) return the very result of the four
operations. For every loop index `i < n`: the index `n - 1 - i` of `store_be` is not
negative, the shift amounts `8 * i` and `8 * (n - 1 - i)` are below the bit width of
`T`, each iteration of the stores is defined, and each iteration of `load_le` and of
`load_be` on an accumulator below `2 ^ (8 * i)` is defined and adds the byte `p[i]`
without losing a bit. One index further the checks do fail. -/
theorem arithmetic_defined (T : UIntType) (p : List Byte) (v : Nat)
    (hp : sizeof T ≤ p.length) :
    (load_le_checked T p = load_le T p ∧ (load_le T p).isSome = true) ∧
    (load_be_checked T p = load_be T p ∧ (load_be T p).isSome = true) ∧
    (store_le_checked T p v = store_le T p v ∧ (store_le T p v).isSome = true) ∧
    (store_be_checked T p v = store_be T p v ∧ (store_be T p v).isSome = true) ∧
    (∀ i, i < sizeof T →
      (0 : Int) ≤ (sizeof T : Int) - 1 - (i : Int) ∧
      8 * i < bits T ∧ 8 * (sizeof T - 1 - i) < bits T ∧
      (∀ q, store_le_step_checked T v q i = store_le_step v q i) ∧
      (∀ q, store_be_step_checked T v q i = store_be_step T v q i) ∧
      (∀ acc, acc < 2 ^ (8 * i) →
        load_le_step_checked T p acc i = load_le_step T p acc i ∧
        load_le_step T p acc i = some (acc + (p.getD i 0).val * 2 ^ (8 * i)) ∧
        load_be_step_checked T p acc i = load_be_step T p acc i ∧
        load_be_step T p acc i = some (acc * 2 ^ 8 + (p.getD i 0).val))) ∧
    store_be_step_checked .u16 0x1122 [0, 0, 0] 2 = none ∧
    store_le_step_checked .u16 0x1122 [0, 0, 0] 2 = none ∧
    load_le_step_checked .u16 [1, 2, 3] 0 2 = none ∧
    load_be_step_checked .u16 [1, 2, 3] 0x1FF 1 = none := by
  refine ⟨⟨load_le_checked_eq T p hp, ?_⟩, ⟨load_be_checked_eq T p hp, ?_⟩,
    ⟨store_le_checked_eq T p v, ?_⟩, ⟨store_be_checked_eq T p v, ?_⟩, fun i hi => ?_,
    by decide, by decide, by decide, by decide⟩
  · rw [load_le, load_le_loop T p _ (Nat.le_refl _) hp]; rfl
  · rw [load_be, load_be_loop T p _ (Nat.le_refl _) hp]; rfl
  · rw [store_le_eq T p v hp]; rfl
  · rw [store_be_eq T p v hp]; rfl
  · refine ⟨by omega, by unfold bits; omega, by unfold bits; omega,
      fun q => store_le_step_checked_eq T v q i hi,
      fun q => store_be_step_checked_eq T v q i hi, fun acc hacc => ?_⟩
    have h1 := load_le_step_exact T p acc i hi (by omega) hacc
    have h2 := load_be_step_exact T p acc i hi (by omega) hacc
    exact ⟨(load_le_step_checked_exact T p acc i hi (by omega) hacc).trans h1.symm, h1,
      (load_be_step_checked_exact T p acc i hi (by omega) hacc).trans h2.symm, h2⟩

/-- Witness of C19: 64-bit loads whose top byte is `0xFF`. -/
theorem arithmetic_defined_witness :
    load_le_checked .u64 [1, 2, 3, 4, 5, 6, 7, 0xFF, 9] = some 0xFF07060504030201 ∧
    load_be_checked .u64 [0xFF, 2, 3, 4, 5, 6, 7, 8, 9] = some 0xFF02030405060708 :=
  ⟨(arithmetic_defined .u64 [1, 2, 3, 4, 5, 6, 7, 0xFF, 9] 0 (by decide)).1.1.trans
      (by decide),
   (arithmetic_defined .u64 [0xFF, 2, 3, 4, 5, 6, 7, 8, 9] 0 (by decide)).2.1.1.trans
      (by decide)⟩

/-! ## The operations on a host -/

/-- An `n`-byte object holds its value modulo `2 ^ (8 * n)`, on either host. -/
theorem objectValue_objectBytes (h : Host) (n x : Nat) :
    h.objectValue (h.objectBytes n x) = x % 2 ^ (8 * n) := by
  have hs := sum_bytes x n
  cases h
  · simp only [Host.objectValue, Host.objectBytes, List.length_map, List.length_range]
    refine (Finset.sum_congr rfl fun i hi => ?_).trans hs
    rw [getD_map_range _ _ i (Finset.mem_range.mp hi), castU8_shiftRight_val]
  · simp only [Host.objectValue, Host.objectBytes, List.length_map, List.length_range]
    rw [sum_be_eq_sum_le]
    refine (Finset.sum_congr rfl fun i hi => ?_).trans hs
    have hi' : i < n := Finset.mem_range.mp hi
    have e : n - 1 - (n - 1 - i) = i := by omega
    rw [getD_map_range _ _ (n - 1 - i) (by omega), castU8_shiftRight_val, e]

theorem objectValue_objectBytes_of_lt (h : Host) (T : UIntType) (x : Nat)
    (hx : x < 2 ^ bits T) : h.objectValue (h.objectBytes (sizeof T) x) = x := by
  rw [objectValue_objectBytes]
  exact Nat.mod_eq_of_lt hx

theorem load_le_step_lt (T : UIntType) (p : List Byte) (acc i r : Nat)
    (h : load_le_step T p acc i = some r) : r < 2 ^ bits T := by
  unfold load_le_step at h
  cases hb : readByte p i with
  | none => simp [hb] at h
  | some b =>
    simp only [hb, Option.bind_eq_bind, Option.some_bind] at h
    cases h
    exact Nat.mod_lt _ (Nat.two_pow_pos _)

theorem load_be_step_lt (T : UIntType) (p : List Byte) (acc i r : Nat)
    (h : load_be_step T p acc i = some r) : r < 2 ^ bits T := by
  unfold load_be_step at h
  cases hb : readByte p i with
  | none => simp [hb] at h
  | some b =>
    simp only [hb, Option.bind_eq_bind, Option.some_bind] at h
    cases h
    exact Nat.mod_lt _ (Nat.two_pow_pos _)

/-- A loop whose accumulator is an object of the host computes the object of what the
loop on values computes, provided every value fits in `T`. -/
theorem foldlM_on (h : Host) (T : UIntType) (step : Nat → Nat → Option Nat)
    (hstep : ∀ acc i r, step acc i = some r → r < 2 ^ bits T) (l : List Nat) (acc : Nat)
    (hacc : acc < 2 ^ bits T) :
    l.foldlM (fun vObj i => (step (h.objectValue vObj) i).map (h.objectBytes (sizeof T)))
        (h.objectBytes (sizeof T) acc)
      = (l.foldlM step acc).map (h.objectBytes (sizeof T)) := by
  induction l generalizing acc with
  | nil => rfl
  | cons x xs ih =>
    simp only [List.foldlM_cons, objectValue_objectBytes_of_lt h T acc hacc]
    cases hs : step acc x with
    | none => rfl
    | some r => exact ih r (hstep acc x r hs)

/-- The result of a loop on values fits in `T` when every iteration's does. -/
theorem foldlM_lt (T : UIntType) (step : Nat → Nat → Option Nat)
    (hstep : ∀ acc i r, step acc i = some r → r < 2 ^ bits T) (l : List Nat) (acc r : Nat)
    (hacc : acc < 2 ^ bits T) (h : l.foldlM step acc = some r) : r < 2 ^ bits T := by
  induction l generalizing acc with
  | nil =>
    cases h
    exact hacc
  | cons x xs ih =>
    simp only [List.foldlM_cons] at h
    cases hs : step acc x with
    | none => simp [hs] at h
    | some a =>
      simp only [hs, Option.bind_eq_bind, Option.some_bind] at h
      exact ih a (hstep acc x a hs) h

theorem map_objectValue (h : Host) (T : UIntType) (o : Option Nat)
    (ho : ∀ r, o = some r → r < 2 ^ bits T) :
    (o.map (h.objectBytes (sizeof T))).map h.objectValue = o := by
  cases o with
  | none => rfl
  | some r =>
    simp only [Option.map_some']
    rw [objectValue_objectBytes_of_lt h T r (ho r rfl)]

/-- On every host `load_le` computes what it computes on values. -/
theorem load_le_on_eq (h : Host) (T : UIntType) (p : List Byte) :
    load_le_on h T p = load_le T p := by
  unfold load_le_on load_le_step_on
  rw [foldlM_on h T (load_le_step T p) (load_le_step_lt T p) _ 0 (Nat.two_pow_pos _)]
  exact map_objectValue h T _ fun r hr =>
    foldlM_lt T (load_le_step T p) (load_le_step_lt T p) _ 0 r (Nat.two_pow_pos _) hr

/-- On every host `load_be` computes what it computes on values. -/
theorem load_be_on_eq (h : Host) (T : UIntType) (p : List Byte) :
    load_be_on h T p = load_be T p := by
  unfold load_be_on load_be_step_on
  rw [foldlM_on h T (load_be_step T p) (load_be_step_lt T p) _ 0 (Nat.two_pow_pos _)]
  exact map_objectValue h T _ fun r hr =>
    foldlM_lt T (load_be_step T p) (load_be_step_lt T p) _ 0 r (Nat.two_pow_pos _) hr

theorem store_le_on_eq (h : Host) (T : UIntType) (p : List Byte) (v : Nat) :
    store_le_on h T p v = store_le T p (v % 2 ^ bits T) := by
  unfold store_le_on store_le
  rw [objectValue_objectBytes]
  rfl

theorem store_be_on_eq (h : Host) (T : UIntType) (p : List Byte) (v : Nat) :
    store_be_on h T p v = store_be T p (v % 2 ^ bits T) := by
  unfold store_be_on store_be
  rw [objectValue_objectBytes]
  rfl

theorem bswap16_on_eq (h : Host) (v : Nat) : bswap16_on h v = bswap .u16 (v % 2 ^ 16) := by
  unfold bswap16_on
  rw [objectValue_objectBytes, objectValue_objectBytes]
  rfl

theorem bswap32_on_eq (h : Host) (v : Nat) : bswap32_on h v = bswap .u32 (v % 2 ^ 32) := by
  unfold bswap32_on
  rw [objectValue_objectBytes, objectValue_objectBytes]
  rfl

theorem bswap64_on_eq (h : Host) (v : Nat) : bswap64_on h v = bswap .u64 (v % 2 ^ 64) := by
  unfold bswap64_on
  rw [objectValue_objectBytes, objectValue_objectBytes]
  rfl


/-- C15. Host independence. With the host as a parameter of the seven operations
(every integer object they declare is laid out in the host's byte order), `bswap16`,
`bswap32`, `bswap64`, `load_le`, `load_be`, `store_le` and `store_be` give the same
result on any two hosts for every input; on every host that result is the one of the
contract (reversed bytes, the little- or big-endian sum of the buffer, the little- or
big-endian bytes of the value), while `is_little_endian` and `is_big_endian` differ
between the little-endian and the big-endian host. -/
theorem host_independent (h1 h2 : Host) (T : UIntType) (p : List Byte) (v : Nat) :
    (bswap16_on h1 v = bswap16_on h2 v ∧
      bswap32_on h1 v = bswap32_on h2 v ∧
      bswap64_on h1 v = bswap64_on h2 v ∧
      load_le_on h1 T p = load_le_on h2 T p ∧
      load_be_on h1 T p = load_be_on h2 T p ∧
      store_le_on h1 T p v = store_le_on h2 T p v ∧
      store_be_on h1 T p v = store_be_on h2 T p v) ∧
    (v < 2 ^ 16 → ∀ i, i < 2 → byteAt (bswap16_on h1 v) (2 - 1 - i) = byteAt v i) ∧
    (v < 2 ^ 32 → ∀ i, i < 4 → byteAt (bswap32_on h1 v) (4 - 1 - i) = byteAt v i) ∧
    (v < 2 ^ 64 → ∀ i, i < 8 → byteAt (bswap64_on h1 v) (8 - 1 - i) = byteAt v i) ∧
    (sizeof T ≤ p.length →
      load_le_on h1 T p
        = some (∑ i in Finset.range (sizeof T), (p.getD i 0).val * 2 ^ (8 * i)) ∧
      load_be_on h1 T p
        = some (∑ i in Finset.range (sizeof T),
            (p.getD i 0).val * 2 ^ (8 * (sizeof T - 1 - i)))) ∧
    (v < 2 ^ bits T → sizeof T ≤ p.length →
      store_le_on h1 T p v
        = some ((List.range (sizeof T)).map (fun i => castU8 (byteAt v i))
            ++ p.drop (sizeof T)) ∧
      store_be_on h1 T p v
        = some ((List.range (sizeof T)).map (fun i => castU8 (byteAt v (sizeof T - 1 - i)))
            ++ p.drop (sizeof T))) ∧
    is_little_endian Host.little ≠ is_little_endian Host.big ∧
    is_big_endian Host.little ≠ is_big_endian Host.big := by
  refine ⟨⟨?_, ?_, ?_, ?_, ?_, ?_, ?_⟩, fun hv i hi => ?_, fun hv i hi => ?_,
    fun hv i hi => ?_, fun hp => ⟨?_, ?_⟩, fun hv hp => ⟨?_, ?_⟩, by decide, by decide⟩
  · rw [bswap16_on_eq, bswap16_on_eq]
  · rw [bswap32_on_eq, bswap32_on_eq]
  · rw [bswap64_on_eq, bswap64_on_eq]
  · rw [load_le_on_eq, load_le_on_eq]
  · rw [load_be_on_eq, load_be_on_eq]
  · rw [store_le_on_eq, store_le_on_eq]
  · rw [store_be_on_eq, store_be_on_eq]
  · rw [bswap16_on_eq, Nat.mod_eq_of_lt hv]
    exact byteAt_bswap .u16 v i hv hi
  · rw [bswap32_on_eq, Nat.mod_eq_of_lt hv]
    exact byteAt_bswap .u32 v i hv hi
  · rw [bswap64_on_eq, Nat.mod_eq_of_lt hv]
    exact byteAt_bswap .u64 v i hv hi
  · rw [load_le_on_eq]
    exact load_le_loop T p _ (Nat.le_refl _) hp
  · rw [load_be_on_eq]
    exact load_be_loop T p _ (Nat.le_refl _) hp
  · rw [store_le_on_eq, Nat.mod_eq_of_lt hv]
    exact store_le_eq T p v hp
  · rw [store_be_on_eq, Nat.mod_eq_of_lt hv]
    exact store_be_eq T p v hp

/-- Witness of C15 on the known vectors, on a big-endian and a little-endian host. -/
theorem host_independent_witness :
    load_le_on Host.big .u32 [0xD4, 0xC3, 0xB2, 0xA1] = some 0xA1B2C3D4 ∧
    load_be_on Host.little .u32 [0xA1, 0xB2, 0xC3, 0xD4] = some 0xA1B2C3D4 ∧
    store_le_on Host.big .u32 [0, 0, 0, 0] 0xA1B2C3D4 = some [0xD4, 0xC3, 0xB2, 0xA1] ∧
    byteAt (bswap16_on Host.big 0x1122) (2 - 1 - 0) = byteAt 0x1122 0 :=
  ⟨((host_independent Host.big Host.little .u32 [0xD4, 0xC3, 0xB2, 0xA1] 0).2.2.2.2.1
      (by decide)).1.trans (by decide),
   ((host_independent Host.little Host.big .u32 [0xA1, 0xB2, 0xC3, 0xD4] 0).2.2.2.2.1
      (by decide)).2.trans (by decide),
   ((host_independent Host.big Host.little .u32 [0, 0, 0, 0] 0xA1B2C3D4).2.2.2.2.2.1
      (by decide) (by decide)).1.trans (by decide),
   (host_independent Host.big Host.little .u32 [] 0x1122).2.1 (by decide) 0 (by decide)⟩

end endian
